import Mathlib

/-!
Verification development for the skill-overlap analyser
(`scripts/analyze.py` of the skill-curator repository).

The analyser's core pipeline is embedded shallowly:

* feature extraction (`extract_triggers`, `extract_keywords`, `extract_tools`),
* pairwise similarity (`jaccard`, the weighted composite score,
  `compute_overlap`),
* union-find clustering (`find_clusters`).

Python floats are modelled by exact rationals (`ℚ`).  To keep every
definition evaluable by the kernel, rational arithmetic inside the
pipeline is spelled with `mkRat` (explicit numerator/denominator
normalisation); the lemmas `qmul_eq` and `qadd_eq` identify these
spellings with ordinary multiplication and addition on `ℚ`.

Python's `dict` of skills is modelled by a `List Skill` (theorems that
need the dict's key uniqueness take a `Nodup` hypothesis on the names).
Python's `set` of strings is modelled by `Finset String`; the one place
where the source iterates over a set in unspecified (hash-dependent)
order — the grouping loop of `find_clusters` — is modelled by an
explicit enumeration-order parameter, constrained to enumerate exactly
that set.
-/

namespace SkillCurator

/-- Multiplication on `ℚ`, written with an explicit `mkRat`
normalisation step so that the kernel can evaluate it on concrete
inputs; `qmul_eq` proves it equal to ordinary multiplication. -/
def qmul (a b : ℚ) : ℚ := mkRat (a.num * b.num) (a.den * b.den)

/-- Addition on `ℚ`, written with an explicit `mkRat` normalisation
step so that the kernel can evaluate it on concrete inputs; `qadd_eq`
proves it equal to ordinary addition. -/
def qadd (a b : ℚ) : ℚ := mkRat (a.num * (b.den : ℤ) + b.num * (a.den : ℤ)) (a.den * b.den)

/-- Lower-casing of one character, as Python's `str.lower` acts on the
ASCII range (the only range the analyser's regexes can keep). -/
def lowerChar (c : Char) : Char := Char.toLower c

/-- Lower-casing of a string, character by character (`str.lower`). -/
def lowerStr (s : String) : String := String.mk (s.data.map lowerChar)

/-- Left-to-right scanner for the trigger regex: a double quote, one or
more non-quote characters, a double quote, matched non-overlapping.
The second argument is the scan state: `none` outside a candidate
match, `some acc` after an opening quote with `acc` the (reversed)
content read so far.  A quote read on empty content means the candidate
failed (the pattern needs at least one character), and the regex engine
restarts at that very quote; a quote read on non-empty content closes a
match.  An unterminated candidate at the end of input yields nothing. -/
def trigScan : List Char → Option (List Char) → List String
  | [], _ => []
  | c :: cs, none => if c = '"' then trigScan cs (some []) else trigScan cs none
  | c :: cs, some acc =>
    if c = '"' then
      if acc.isEmpty then trigScan cs (some [])
      else String.mk acc.reverse :: trigScan cs none
    else trigScan cs (some (c :: acc))

/-- `extract_triggers` from `analyze.py`: pull the quoted trigger
phrases out of a description. -/
def extract_triggers (description : String) : List String :=
  trigScan description.data none

/-- Character class of the keyword regex: ASCII letters (both cases
appear in the pattern, although the input is lower-cased first) and the
CJK unified ideographs block `一`-`鿿`. -/
def isWordChar (c : Char) : Bool :=
  decide ((97 ≤ c.toNat ∧ c.toNat ≤ 122) ∨ (65 ≤ c.toNat ∧ c.toNat ≤ 90) ∨
    (19968 ≤ c.toNat ∧ c.toNat ≤ 40959))

/-- Scanner for the keyword regex: maximal runs of word characters, in
order of appearance, keeping only runs of length at least 2 (the
quantifier is `{2,}`, and a maximal run shorter than 2 is no match).
The second argument is the (reversed) current run of word characters. -/
def runScan : List Char → Option (List Char) → List String
  | [], none => []
  | [], some acc => if 2 ≤ acc.length then [String.mk acc.reverse] else []
  | c :: cs, none =>
    if isWordChar c then runScan cs (some [c]) else runScan cs none
  | c :: cs, some acc =>
    if isWordChar c then runScan cs (some (c :: acc))
    else if 2 ≤ acc.length then String.mk acc.reverse :: runScan cs none
    else runScan cs none

/-- The word runs of length at least 2 of a character list. -/
def wordRuns (l : List Char) : List String := runScan l none

/-- The analyser's fixed stopword list, transcribed from
`extract_keywords` in `analyze.py`. -/
def stopwords : List String :=
  [ "the", "an", "and", "or", "but",
    "in", "on", "at", "to", "for", "of", "with", "by", "from",
    "into", "about", "after", "before", "over",
    "is", "are", "was", "were", "be", "been", "being",
    "have", "has", "had", "do", "does", "did",
    "will", "would", "could", "should", "may", "might", "can",
    "this", "that", "these", "those", "it", "its",
    "they", "them", "their",
    "not", "no", "if", "then", "than", "so", "as",
    "also", "just", "only", "very", "more", "most",
    "some", "any", "all", "each", "every", "both",
    "few", "many", "much", "such",
    "other", "another", "same", "different", "new",
    "when", "how", "what", "which", "who", "where", "why",
    "use", "used", "using", "make", "like",
    "user", "users", "skill", "skills", "tool", "tools",
    "file", "files",
    "asks", "mentions", "discusses", "including", "provides",
    "的", "是", "在", "了", "和", "與", "或", "也", "都",
    "不", "有", "這", "那", "就", "要", "會",
    "可以", "可", "能", "把", "讓", "被",
    "對", "從", "到", "做", "用", "使用", "需要",
    "一個", "這個", "那個",
    "如果", "當", "時", "進行", "以及", "等", "及" ]

/-- The keyword tokens of a description, before deduplication: lower
case the text, take the regex word runs, drop stopwords. -/
def kwTokens (description : String) : List String :=
  (wordRuns ((lowerStr description).data)).filter (fun w => decide (w ∉ stopwords))

/-- `extract_keywords` from `analyze.py`: the set of keyword tokens. -/
def extract_keywords (description : String) : Finset String :=
  (kwTokens description).toFinset

/-- Splitting a character list at commas, exactly as Python's
`str.split(",")`: the empty string splits to one empty field. -/
def splitComma : List Char → List (List Char)
  | [] => [[]]
  | c :: cs =>
    if c = ',' then [] :: splitComma cs
    else
      match splitComma cs with
      | [] => [[c]]
      | t :: ts => (c :: t) :: ts

/-- Whitespace trimming on both ends, as Python's `str.strip()` acts on
the whitespace the analyser's inputs contain. -/
def trimChars (l : List Char) : List Char :=
  ((l.dropWhile Char.isWhitespace).reverse.dropWhile Char.isWhitespace).reverse

/-- `extract_tools` from `analyze.py`: an empty (or missing, defaulted
to empty) tools string yields the empty set; otherwise split on commas,
strip each entry, and keep the non-empty entries as a set. -/
def extract_tools (tools_str : String) : Finset String :=
  if tools_str = "" then ∅
  else
    (((splitComma tools_str.data).map (fun t => String.mk (trimChars t))).filter
      (fun t => decide (t ≠ ""))).toFinset

/-- `jaccard` from `analyze.py`: intersection size over union size,
with the explicit `0.0` branch when both sets are empty (`not a and
not b`, tested here as both cardinalities vanishing).  The quotient is
the rational `mkRat (card of the intersection) (card of the union)`. -/
def jaccard (a b : Finset String) : ℚ :=
  if a.card = 0 ∧ b.card = 0 then 0
  else mkRat ((a ∩ b).card : ℤ) ((a ∪ b).card)

/-- One loaded skill: the dict key (`name`) and the frontmatter fields
the similarity engine reads, with the source's `.get(..., "")`
defaults already applied. -/
structure Skill where
  name : String
  description : String
  tools : String
deriving DecidableEq

/-- Keyword similarity of a pair: Jaccard index of the keyword sets. -/
def kwSim (fa fb : Skill) : ℚ :=
  jaccard (extract_keywords fa.description) (extract_keywords fb.description)

/-- Tool similarity of a pair: Jaccard index of the tool sets. -/
def toolSim (fa fb : Skill) : ℚ :=
  jaccard (extract_tools fa.tools) (extract_tools fb.tools)

/-- The lower-cased trigger phrases of one skill, as a list. -/
def trigLower (fa : Skill) : List String :=
  (extract_triggers fa.description).map lowerStr

/-- Shared lower-cased trigger phrases of a pair:
`set(...) & set(...)` in the source. -/
def trigOverlap (fa fb : Skill) : Finset String :=
  (trigLower fa).toFinset ∩ (trigLower fb).toFinset

/-- The weighted composite score of a pair, before any rounding:
`kw_sim * 0.5 + tool_sim * 0.2 + (0.3 if trig_overlap else 0)`.
The decimal weights are the exact rationals 1/2, 1/5 and 3/10, and the
trigger bonus fires when the shared-trigger set is non-empty. -/
def compositeScore (fa fb : Skill) : ℚ :=
  qadd (qadd (qmul (kwSim fa fb) (mkRat 1 2)) (qmul (toolSim fa fb) (mkRat 1 5)))
    (if (trigOverlap fa fb).card = 0 then 0 else mkRat 3 10)

/-- Round a rational to the nearest integer, ties to the even integer:
the rounding Python's `round` applies.  `f` is the floor of `q`
(`Int.fdiv` is floor division), and `r2` is the numerator of twice the
fractional part over the denominator `q.den`. -/
def roundHalfEven (q : ℚ) : ℤ :=
  let f := Int.fdiv q.num (q.den : ℤ)
  let r2 := 2 * (q.num - f * (q.den : ℤ))
  if r2 < (q.den : ℤ) then f
  else if (q.den : ℤ) < r2 then f + 1
  else if f % 2 = 0 then f else f + 1

/-- Python's `round(x, 3)`: scale by 1000, round half to even, scale
back. -/
def round3 (q : ℚ) : ℚ :=
  mkRat (roundHalfEven (qmul q 1000)) 1000

/-- One emitted overlap record, with the fields the source stores:
rounded scores, the sorted shared-trigger list, and the sorted
shared-keyword preview capped at 10 entries. -/
structure OverlapRec where
  pair : String × String
  composite : ℚ
  keyword_sim : ℚ
  tool_sim : ℚ
  trigger_overlap : List String
  shared_keywords : List String
deriving DecidableEq

/-- Stable insertion of `x` into `l`: `x` goes in front of the first
element that does not strictly precede it, so that elements equal to
`x` under the order keep their relative positions. -/
def insStable (lt : α → α → Prop) [DecidableRel lt] (x : α) : List α → List α
  | [] => [x]
  | y :: ys => if lt y x then y :: insStable lt x ys else x :: y :: ys

/-- Stable sort by the strict order `lt`.  Python's `list.sort` and
`sorted` are stable, and a stable sort's output is uniquely determined
by the comparison and the input order, so this insertion sort computes
exactly what the source's Timsort computes. -/
def stableSort (lt : α → α → Prop) [DecidableRel lt] : List α → List α
  | [] => []
  | x :: xs => insStable lt x (stableSort lt xs)

/-- Ascending lexicographic order on strings, used by Python's
`sorted` on names and string lists: code-point lexicographic
comparison, written on the underlying character lists (`strLt_iff`
identifies it with the library order on `String`). -/
def strLt (a b : String) : Prop := a.data < b.data

instance : DecidableRel strLt := fun a b => by
  unfold strLt
  exact List.Lex.decidableRel _ a.data b.data

/-- Python's `sorted` on a list of strings. -/
def sortStrings (l : List String) : List String := stableSort strLt l

/-- The distinct elements of `xs` that also occur in `ys`: the set
intersection `set(xs) & set(ys)` enumerated as a deduplicated list. -/
def interList (xs ys : List String) : List String :=
  xs.dedup.filter (fun t => decide (t ∈ ys))

/-- The overlap record `compute_overlap` appends for the skill pair
`(fa, fb)` (the names `fa.name`, `fb.name` are the iteration keys `a`,
`b`): scores rounded to three decimals, `sorted(trig_overlap)`, and
`sorted(kw_a & kw_b)[:10]`. -/
def mkRecord (fa fb : Skill) : OverlapRec :=
  { pair := (fa.name, fb.name)
    composite := round3 (compositeScore fa fb)
    keyword_sim := round3 (kwSim fa fb)
    tool_sim := round3 (toolSim fa fb)
    trigger_overlap := sortStrings (interList (trigLower fa) (trigLower fb))
    shared_keywords := (sortStrings (interList (kwTokens fa.description) (kwTokens fb.description))).take 10 }

/-- `itertools.combinations(names, 2)`: all pairs `(l[i], l[j])` with
`i < j`, in lexicographic order of positions. -/
def pairsOf : List α → List (α × α)
  | [] => []
  | x :: xs => (xs.map (fun y => (x, y))) ++ pairsOf xs

/-- Ascending order of skills by name: `sorted(skills.keys())` followed
by the dict lookups. -/
def byNameLt (s t : Skill) : Prop := strLt s.name t.name

instance : DecidableRel byNameLt := fun s t => by
  unfold byNameLt strLt
  exact List.Lex.decidableRel _ s.name.data t.name.data

/-- Descending order on records by stored (rounded) composite:
`results.sort(key=lambda x: x["composite"], reverse=True)`.  `r`
strictly precedes `s` when `r`'s composite is larger. -/
def compositeGt (r s : OverlapRec) : Prop := s.composite < r.composite

instance : DecidableRel compositeGt :=
  fun r s => inferInstanceAs (Decidable (s.composite < r.composite))

/-- `compute_overlap` from `analyze.py`: iterate the name-sorted skill
pairs once, keep a record for a pair exactly when its unrounded
composite strictly exceeds 0.15 (the rational 3/20), then stable-sort
by rounded composite, descending. -/
def compute_overlap (skills : List Skill) : List OverlapRec :=
  let sortedSkills := stableSort byNameLt skills
  let results := (pairsOf sortedSkills).filterMap fun ab =>
    if mkRat 3 20 < compositeScore ab.1 ab.2 then some (mkRecord ab.1 ab.2) else none
  stableSort compositeGt results

/-- The union-find parent map, as the Python dict `parent`: an
association list in key-insertion order (assignment to a present key
rewrites it in place; assignment to an absent key appends). -/
abbrev PMap := List (String × String)

/-- `parent.get(x, x)`: the stored parent of `x`, defaulting to `x`. -/
def pget : PMap → String → String
  | [], x => x
  | (k, v) :: p, x => if k = x then v else pget p x

/-- `parent[k] = v` on the dict. -/
def dset : PMap → String → String → PMap
  | [], k, v => [(k, v)]
  | (k1, v1) :: p, k, v => if k1 = k then (k, v) :: p else (k1, v1) :: dset p k v

/-- The body of `find` in `find_clusters`: while `x` is not its own
parent, re-point `x` to its grandparent (path halving) and move there.
The loop is spelled with a fuel argument bounding the iteration count;
callers pass `p.length + 1`, which the no-cycle invariant (maintained
by every caller in the source and proved below) shows is enough for the
loop to reach its fixed point, so the fuelled loop computes exactly
what the source's unbounded loop computes. -/
def ufFind : ℕ → PMap → String → PMap × String
  | 0, p, x => (p, x)
  | fuel+1, p, x =>
    let p1 := pget p x
    if p1 = x then (p, x)
    else ufFind fuel (dset p x (pget p p1)) (pget p p1)

/-- One call `find(x)` on the current parent map. -/
def ufFindCall (p : PMap) (x : String) : PMap × String :=
  ufFind (p.length + 1) p x

/-- `union(x, y)` from `find_clusters`: find both roots (each find
mutates the map by path halving) and re-point the first root to the
second when they differ. -/
def ufUnion (p : PMap) (x y : String) : PMap :=
  let fx := ufFindCall p x
  let fy := ufFindCall fx.1 y
  if fx.2 = fy.2 then fy.1 else dset fy.1 fx.2 fy.2

/-- The union pass of `find_clusters`: fold over the overlap records in
list order, unioning the endpoint names of every record whose stored
composite is at least the cluster threshold. -/
def processOverlaps (t : ℚ) (ov : List OverlapRec) : PMap :=
  ov.foldl (fun p o => if t ≤ o.composite then ufUnion p o.pair.1 o.pair.2 else p) []

/-- `all_skills` in `find_clusters`: the set of names occurring in some
overlap record's pair. -/
def overlapNodes (ov : List OverlapRec) : Finset String :=
  ov.foldl (fun s o => insert o.pair.2 (insert o.pair.1 s)) ∅

/-- `s.add(x)` on a Python set, represented as the duplicate-free list
of its elements in insertion order: a no-op when present, an append
when absent.  (The set's own iteration order never reaches the
analyser's output: clusters are sorted before printing.) -/
def addMem (l : List String) (s : String) : List String :=
  if s ∈ l then l else l ++ [s]

/-- `groups[r].add(s)` on the insertion-ordered dict of groups
(`defaultdict(set)`): extend the set at an existing key in place, or
append a fresh singleton entry. -/
def addToGroups : List (String × List String) → String → String → List (String × List String)
  | [], r, s => [(r, [s])]
  | (k, c) :: gs, r, s =>
    if k = r then (k, addMem c s) :: gs else (k, c) :: addToGroups gs r s

/-- The grouping pass of `find_clusters`: fold `groups[find(s)].add(s)`
over the skills, in the given enumeration order, threading the parent
map through the (still mutating) `find` calls. -/
def buildGroups (p : PMap) (order : List String) : PMap × List (String × List String) :=
  order.foldl (fun st s =>
    let f := ufFindCall st.1 s
    (f.1, addToGroups st.2 f.2 s)) (p, [])

/-- `find_clusters` from `analyze.py`: union the endpoints of every
record meeting the cluster threshold, group every name occurring in
some record by its root, and keep the groups with more than one
member (`len(c) > 1` on the set is the number of distinct members).
`order` is the order in which Python's `for s in all_skills` enumerates
the set `all_skills`: CPython iterates a `set` of strings in a
hash-dependent order fixed by neither the input nor the code, so the
embedding takes the enumeration order as an explicit parameter,
constrained in the theorems to enumerate exactly `overlapNodes ov`. -/
def find_clusters (order : List String) (ov : List OverlapRec) (t : ℚ) : List (List String) :=
  let p := processOverlaps t ov
  ((buildGroups p order).2.map Prod.snd).filter (fun c => 1 < c.length)

/-- An edge of the clustering graph at threshold `t`: some overlap
record joins `x` and `y` (in either orientation) with stored composite
at least `t`. -/
def EdgeAt (ov : List OverlapRec) (t : ℚ) (x y : String) : Prop :=
  ∃ o ∈ ov, t ≤ o.composite ∧ (o.pair = (x, y) ∨ o.pair = (y, x))

/-- Connectivity by a chain of overlap records at threshold `t`: the
equivalence closure of `EdgeAt ov t`. -/
def ConnAt (ov : List OverlapRec) (t : ℚ) : String → String → Prop :=
  Relation.EqvGen (EdgeAt ov t)

/-- Pure parent-chain chase (no path compression), with fuel; used only
to state what the root of a node is. -/
def chase : ℕ → PMap → String → String
  | 0, _, x => x
  | fuel+1, p, x => if pget p x = x then x else chase fuel p (pget p x)

/-- The root of `x` in the parent map: chase parent links with enough
fuel to traverse every key once. -/
def rootD (p : PMap) (x : String) : String := chase (p.length + 1) p x

/-- A parent chain of length `n` from `x` ending at the root `r`
(a fixed point of the parent map). -/
inductive ChainN (p : PMap) : ℕ → String → String → Prop
  | root (x : String) : pget p x = x → ChainN p 0 x x
  | step (n : ℕ) (x r : String) : pget p x ≠ x → ChainN p n (pget p x) r →
      ChainN p (n + 1) x r

/-- The invariant of the union-find state: keys are listed once, no key
is its own parent (so roots are exactly the non-keys), parent links are
acyclic (witnessed by a rank function that increases along links), and
every parent link connects nodes that are `R`-connected. -/
structure UFInv (R : String → String → Prop) (p : PMap) : Prop where
  nodupKeys : (p.map Prod.fst).Nodup
  noSelf : ∀ q ∈ p, q.1 ≠ q.2
  ranked : ∃ f : String → ℕ, ∀ q ∈ p, f q.1 < f q.2
  linkConn : ∀ q ∈ p, Relation.EqvGen R q.1 q.2

/-- A concrete two-skill corpus sharing a trigger phrase, keywords and
a tool; used to instantiate theorems with hypotheses. -/
def skDeployA : Skill :=
  { name := "a"
    description := "Deploy \"ship it\" to kubernetes clusters"
    tools := "kubectl,helm" }

/-- Companion skill to `skDeployA`. -/
def skDeployB : Skill :=
  { name := "b"
    description := "Deploy \"ship it\" and rollback clusters"
    tools := "kubectl,docker" }

/-- A skill with keyword Jaccard 2/7 against `skRoundB` and tool
Jaccard 1/27 (one shared tool out of 27), no shared trigger: the
unrounded composite is 142/945 ≈ 0.15026, just above the reporting
threshold, while rounding to three decimals lands exactly on 0.15. -/
def skRoundA : Skill :=
  { name := "a"
    description := "alpha bravo carbon delta"
    tools := "t,a1,a2,a3,a4,a5,a6,a7,a8,a9,b1,b2,b3,b4" }

/-- Companion skill to `skRoundA`. -/
def skRoundB : Skill :=
  { name := "b"
    description := "alpha bravo echo fox golf"
    tools := "t,c1,c2,c3,c4,c5,c6,c7,c8,c9,d1,d2,d3,d4" }

/-- Four skills forming two separate clusters (`a`-`b` share the
trigger `ping`, `c`-`d` share the trigger `pong`, and cross pairs share
nothing). -/
def clusCorpus : List Skill :=
  [ { name := "a", description := "Alpha \"ping\" zulu", tools := "" },
    { name := "b", description := "Alpha \"ping\" yankee", tools := "" },
    { name := "c", description := "Bravo \"pong\" xray", tools := "" },
    { name := "d", description := "Bravo \"pong\" whiskey", tools := "" } ]

/-- The overlap list of the two-cluster corpus. -/
def clusOverlaps : List OverlapRec := compute_overlap clusCorpus

/-- One possible enumeration order of the four clustered names. -/
def orderOne : List String := [ "a", "b", "c", "d" ]

/-- Another possible enumeration order of the same four names. -/
def orderTwo : List String := [ "c", "a", "d", "b" ]

lemma qmul_eq (a b : ℚ) : qmul a b = a * b := by
  rw [qmul, Rat.mkRat_eq_div]
  push_cast
  rw [← div_mul_div_comm, Rat.num_div_den, Rat.num_div_den]

lemma qadd_eq (a b : ℚ) : qadd a b = a + b := by
  have ha : ((a.den : ℚ)) ≠ 0 := by positivity
  have hb : ((b.den : ℚ)) ≠ 0 := by positivity
  rw [qadd, Rat.mkRat_eq_div]
  push_cast
  conv_rhs => rw [← Rat.num_div_den a, ← Rat.num_div_den b]
  rw [div_add_div _ _ ha hb]
  ring_nf

lemma strLt_iff (a b : String) : strLt a b ↔ a < b := by
  rw [String.lt_iff_toList_lt]
  exact ⟨fun h => h, fun h => h⟩

lemma jaccard_empty_empty : jaccard ∅ ∅ = 0 := by
  simp [jaccard]

lemma jaccard_eq_div {a b : Finset String} (h : a ∪ b ≠ ∅) :
    jaccard a b = ((a ∩ b).card : ℚ) / ((a ∪ b).card : ℚ) := by
  have hcond : ¬ (a.card = 0 ∧ b.card = 0) := by
    rintro ⟨h1, h2⟩
    rw [Finset.card_eq_zero] at h1 h2
    rw [h1, h2] at h
    simp at h
  rw [jaccard, if_neg hcond, Rat.mkRat_eq_div]
  push_cast
  rfl

lemma union_nonempty_of_not_both_empty {a b : Finset String}
    (hcond : ¬ (a.card = 0 ∧ b.card = 0)) : a ∪ b ≠ ∅ := by
  rcases not_and_or.mp hcond with h | h
  · obtain ⟨x, hx⟩ := Finset.card_pos.mp (Nat.pos_of_ne_zero h)
    exact Finset.nonempty_iff_ne_empty.mp ⟨x, Finset.mem_union_left _ hx⟩
  · obtain ⟨x, hx⟩ := Finset.card_pos.mp (Nat.pos_of_ne_zero h)
    exact Finset.nonempty_iff_ne_empty.mp ⟨x, Finset.mem_union_right _ hx⟩

lemma jaccard_nonneg (a b : Finset String) : 0 ≤ jaccard a b := by
  rw [jaccard]
  split
  · exact le_refl _
  · rw [Rat.mkRat_eq_div]
    positivity

lemma jaccard_le_one (a b : Finset String) : jaccard a b ≤ 1 := by
  rw [jaccard]
  split
  · norm_num
  · rename_i hcond
    have hne := union_nonempty_of_not_both_empty hcond
    have hpos : (0 : ℚ) < ((a ∪ b).card : ℚ) := by
      have := Finset.card_pos.mpr (Finset.nonempty_iff_ne_empty.mpr hne)
      exact_mod_cast this
    rw [Rat.mkRat_eq_div, div_le_one hpos]
    push_cast
    exact_mod_cast Finset.card_le_card Finset.inter_subset_union

lemma fdiv_num_den (q : ℚ) : Int.fdiv q.num (q.den : ℤ) = ⌊q⌋ := by
  rw [Int.fdiv_eq_ediv _ (Int.natCast_nonneg q.den), Rat.floor_def]

lemma roundHalfEven_floor_or (q : ℚ) :
    roundHalfEven q = ⌊q⌋ ∨ roundHalfEven q = ⌊q⌋ + 1 := by
  simp only [roundHalfEven, fdiv_num_den]
  split_ifs <;> simp

lemma floor_lt_of_half_le {q : ℚ}
    (h : (q.den : ℤ) ≤ 2 * (q.num - ⌊q⌋ * (q.den : ℤ))) : (⌊q⌋ : ℚ) < q := by
  have hden : (0 : ℤ) < (q.den : ℤ) := by exact_mod_cast q.den_pos
  have hnum : ⌊q⌋ * (q.den : ℤ) < q.num := by omega
  have hdenq : (0 : ℚ) < (q.den : ℚ) := by exact_mod_cast q.den_pos
  conv_rhs => rw [← Rat.num_div_den q]
  rw [lt_div_iff₀ hdenq]
  exact_mod_cast hnum

lemma roundHalfEven_nonneg {q : ℚ} (h : 0 ≤ q) : 0 ≤ roundHalfEven q := by
  have hf := Int.floor_nonneg.mpr h
  rcases roundHalfEven_floor_or q with h1 | h1 <;> omega

lemma roundHalfEven_le {q : ℚ} {n : ℤ} (h : q ≤ (n : ℚ)) : roundHalfEven q ≤ n := by
  have hfl : ⌊q⌋ ≤ n := by
    have := Int.floor_le_floor h
    rwa [Int.floor_intCast] at this
  simp only [roundHalfEven, fdiv_num_den]
  split_ifs with h1 h2 h3
  · exact hfl
  · have hq : (⌊q⌋ : ℚ) < q := floor_lt_of_half_le (le_of_lt h2)
    have : (⌊q⌋ : ℚ) < (n : ℚ) := lt_of_lt_of_le hq h
    have : ⌊q⌋ < n := by exact_mod_cast this
    omega
  · exact hfl
  · have hq : (⌊q⌋ : ℚ) < q := floor_lt_of_half_le (by omega)
    have : (⌊q⌋ : ℚ) < (n : ℚ) := lt_of_lt_of_le hq h
    have : ⌊q⌋ < n := by exact_mod_cast this
    omega

lemma round3_nonneg {q : ℚ} (h : 0 ≤ q) : 0 ≤ round3 q := by
  rw [round3, Rat.mkRat_eq_div]
  apply div_nonneg _ (by norm_num)
  have h1 : (0 : ℚ) ≤ qmul q 1000 := by
    rw [qmul_eq]
    positivity
  exact_mod_cast roundHalfEven_nonneg h1

lemma round3_le_one {q : ℚ} (h : q ≤ 1) : round3 q ≤ 1 := by
  rw [round3, Rat.mkRat_eq_div]
  rw [div_le_one (by norm_num)]
  have h1 : qmul q 1000 ≤ ((1000 : ℤ) : ℚ) := by
    rw [qmul_eq]
    push_cast
    linarith
  exact_mod_cast roundHalfEven_le h1

/-- C7: `jaccard` is total: it returns the cardinality quotient
whenever the union is non-empty, returns the exact rational 0 when both
sets are empty, and the division's denominator is non-zero whenever the
dividing branch is taken. -/
theorem c7_jaccard_total_and_empty_zero (a b : Finset String) :
    jaccard ∅ ∅ = 0 ∧
    (a = ∅ ∧ b = ∅ → jaccard a b = 0) ∧
    (a ∪ b ≠ ∅ →
      jaccard a b = ((a ∩ b).card : ℚ) / ((a ∪ b).card : ℚ) ∧
        ((a ∪ b).card : ℚ) ≠ 0) := by
  refine ⟨jaccard_empty_empty, ?_, ?_⟩
  · rintro ⟨rfl, rfl⟩
    exact jaccard_empty_empty
  · intro h
    refine ⟨jaccard_eq_div h, ?_⟩
    have := Finset.card_pos.mpr (Finset.nonempty_iff_ne_empty.mpr h)
    positivity

theorem c7_jaccard_total_and_empty_zero_witness :
    (({ "x" } : Finset String) ∪ ∅ ≠ ∅) ∧
    (jaccard { "x" } ∅ =
        ((({ "x" } : Finset String) ∩ ∅).card : ℚ) / ((({ "x" } : Finset String) ∪ ∅).card : ℚ) ∧
      ((({ "x" } : Finset String) ∪ ∅).card : ℚ) ≠ 0) := by
  have hne : ({ "x" } : Finset String) ∪ ∅ ≠ ∅ := by simp
  exact ⟨hne, (c7_jaccard_total_and_empty_zero { "x" } ∅).2.2 hne⟩

/-- C2: the composite score is the stated weighted blend (weights 1/2,
1/5 and a 3/10 bonus exactly when some trigger phrase is shared), and
the keyword similarity, tool similarity and composite — raw and as
stored (rounded) in the emitted record — all lie in `[0, 1]`. -/
theorem c2_composite_formula_and_range (fa fb : Skill) :
    compositeScore fa fb =
      (0.5 : ℚ) * kwSim fa fb + (0.2 : ℚ) * toolSim fa fb +
        (if trigOverlap fa fb ≠ ∅ then (0.3 : ℚ) else 0) ∧
    0 ≤ kwSim fa fb ∧ kwSim fa fb ≤ 1 ∧
    0 ≤ toolSim fa fb ∧ toolSim fa fb ≤ 1 ∧
    0 ≤ compositeScore fa fb ∧ compositeScore fa fb ≤ 1 ∧
    0 ≤ (mkRecord fa fb).keyword_sim ∧ (mkRecord fa fb).keyword_sim ≤ 1 ∧
    0 ≤ (mkRecord fa fb).tool_sim ∧ (mkRecord fa fb).tool_sim ≤ 1 ∧
    0 ≤ (mkRecord fa fb).composite ∧ (mkRecord fa fb).composite ≤ 1 := by
  have hk0 : 0 ≤ kwSim fa fb := jaccard_nonneg _ _
  have hk1 : kwSim fa fb ≤ 1 := jaccard_le_one _ _
  have ht0 : 0 ≤ toolSim fa fb := jaccard_nonneg _ _
  have ht1 : toolSim fa fb ≤ 1 := jaccard_le_one _ _
  have hform : compositeScore fa fb =
      (0.5 : ℚ) * kwSim fa fb + (0.2 : ℚ) * toolSim fa fb +
        (if trigOverlap fa fb ≠ ∅ then (0.3 : ℚ) else 0) := by
    rw [compositeScore, qadd_eq, qadd_eq, qmul_eq, qmul_eq]
    by_cases hch : trigOverlap fa fb = ∅
    · rw [if_pos (Finset.card_eq_zero.mpr hch), if_neg (by simp [hch])]
      rw [Rat.mkRat_eq_div, Rat.mkRat_eq_div]
      norm_num
      ring
    · rw [if_neg (fun hcard => hch (Finset.card_eq_zero.mp hcard)), if_pos hch]
      rw [Rat.mkRat_eq_div, Rat.mkRat_eq_div, Rat.mkRat_eq_div]
      norm_num
      ring
  have hc0 : 0 ≤ compositeScore fa fb := by
    rw [hform]
    split_ifs <;> norm_num <;> linarith
  have hc1 : compositeScore fa fb ≤ 1 := by
    rw [hform]
    split_ifs <;> norm_num <;> linarith
  refine ⟨hform, hk0, hk1, ht0, ht1, hc0, hc1, ?_, ?_, ?_, ?_, ?_, ?_⟩
  · exact round3_nonneg hk0
  · exact round3_le_one hk1
  · exact round3_nonneg ht0
  · exact round3_le_one ht1
  · exact round3_nonneg hc0
  · exact round3_le_one hc1

lemma trigScan_ne_empty :
    ∀ (l : List Char) (st : Option (List Char)) (t : String), t ∈ trigScan l st → t ≠ "" := by
  intro l
  induction l with
  | nil =>
    intro st t ht
    cases st <;> simp [trigScan] at ht
  | cons c cs ih =>
    intro st t ht
    cases st with
    | none =>
      simp only [trigScan] at ht
      split_ifs at ht
      · exact ih _ _ ht
      · exact ih _ _ ht
    | some acc =>
      simp only [trigScan] at ht
      split_ifs at ht with h1 h2
      · exact ih _ _ ht
      · rcases List.mem_cons.mp ht with h | h
        · subst h
          intro hc
          have hdata : acc.reverse = [] := congrArg String.data hc
          rw [List.reverse_eq_nil_iff] at hdata
          rw [hdata] at h2
          simp at h2
        · exact ih _ _ h
      · exact ih _ _ ht

/-- C10: trigger extraction yields only non-empty phrases: two adjacent
double quotes contribute nothing, so the empty string is never a
trigger. -/
theorem c10_triggers_nonempty (s t : String) (h : t ∈ extract_triggers s) : t ≠ "" :=
  trigScan_ne_empty s.data none t h

theorem c10_triggers_nonempty_witness :
    ( "ship it" ∈ extract_triggers skDeployA.description) ∧ ( "ship it" : String) ≠ "" :=
  ⟨by decide, c10_triggers_nonempty skDeployA.description ( "ship it" ) (by decide)⟩

/-- C8: a phrase is in the shared-trigger set of a pair exactly when
each of the two descriptions contains a quoted phrase that lower-cases
to it. -/
theorem c8_trigger_overlap_iff (fa fb : Skill) (t : String) :
    t ∈ trigOverlap fa fb ↔
      ((∃ u ∈ extract_triggers fa.description, lowerStr u = t) ∧
        (∃ v ∈ extract_triggers fb.description, lowerStr v = t)) := by
  simp [trigOverlap, trigLower]

/-- C9: the 0.15 reporting gate tests the unrounded composite while the
stored field is the composite rounded to three decimals, so a record
can be emitted whose stored composite does not itself exceed 0.15: on
the corpus below the true composite is 142/945 ≈ 0.15026 > 0.15 and the
emitted record's composite field is exactly 0.15. -/
theorem c9_gate_unrounded_field_rounded :
    ∃ (skills : List Skill) (fa fb : Skill),
      mkRecord fa fb ∈ compute_overlap skills ∧
      (0.15 : ℚ) < compositeScore fa fb ∧
      (mkRecord fa fb).composite = round3 (compositeScore fa fb) ∧
      (mkRecord fa fb).composite ≤ (0.15 : ℚ) := by
  refine ⟨[ skRoundA, skRoundB ], skRoundA, skRoundB, by decide, ?_, rfl, ?_⟩
  · have h : compositeScore skRoundA skRoundB = mkRat 142 945 := by decide
    rw [h, Rat.mkRat_eq_div]
    norm_num
  · have h : (mkRecord skRoundA skRoundB).composite = mkRat 3 20 := by decide
    rw [h, Rat.mkRat_eq_div]
    norm_num

lemma insStable_perm {α : Type} (lt : α → α → Prop) [DecidableRel lt] (x : α) (l : List α) :
    (insStable lt x l).Perm (x :: l) := by
  induction l with
  | nil => exact List.Perm.refl _
  | cons y ys ih =>
    rw [insStable]
    split_ifs with h
    · exact (List.Perm.cons y ih).trans (List.Perm.swap x y ys)
    · exact List.Perm.refl _

lemma stableSort_perm {α : Type} (lt : α → α → Prop) [DecidableRel lt] (l : List α) :
    (stableSort lt l).Perm l := by
  induction l with
  | nil => exact List.Perm.refl _
  | cons x xs ih =>
    rw [stableSort]
    exact (insStable_perm lt x (stableSort lt xs)).trans (List.Perm.cons x ih)

lemma insStable_pairwise {α : Type} (lt : α → α → Prop) [DecidableRel lt]
    (S : α → α → Prop)
    (hltS : ∀ a b c, ¬ lt b a → lt b c → lt a c)
    (hneg : ∀ a b c, ¬ lt b a → ¬ lt c b → ¬ lt c a)
    (x : α) (l : List α)
    (hl : l.Pairwise (fun a b => lt a b ∨ (¬ lt a b ∧ ¬ lt b a ∧ S a b)))
    (hx : ∀ y ∈ l, S x y) :
    (insStable lt x l).Pairwise (fun a b => lt a b ∨ (¬ lt a b ∧ ¬ lt b a ∧ S a b)) := by
  induction l with
  | nil => simp [insStable]
  | cons y ys ih =>
    rw [List.pairwise_cons] at hl
    obtain ⟨hy, hys⟩ := hl
    rw [insStable]
    split_ifs with h
    · rw [List.pairwise_cons]
      refine ⟨?_, ih hys (fun z hz => hx z (List.mem_cons_of_mem y hz))⟩
      intro z hz
      rcases List.mem_cons.mp ((insStable_perm lt x ys).mem_iff.mp hz) with rfl | hz2
      · exact Or.inl h
      · exact hy z hz2
    · rw [List.pairwise_cons]
      constructor
      · intro z hz
        rcases List.mem_cons.mp hz with rfl | hz2
        · by_cases hxz : lt x z
          · exact Or.inl hxz
          · exact Or.inr ⟨hxz, h, hx z (List.mem_cons_self _ _)⟩
        · rcases hy z hz2 with hlt | ⟨h1, h2, _⟩
          · exact Or.inl (hltS x y z h hlt)
          · by_cases hxz : lt x z
            · exact Or.inl hxz
            · exact Or.inr ⟨hxz, hneg x y z h h2, hx z (List.mem_cons_of_mem y hz2)⟩
      · rw [List.pairwise_cons]
        exact ⟨hy, hys⟩

lemma stableSort_pairwise {α : Type} (lt : α → α → Prop) [DecidableRel lt]
    (S : α → α → Prop)
    (hltS : ∀ a b c, ¬ lt b a → lt b c → lt a c)
    (hneg : ∀ a b c, ¬ lt b a → ¬ lt c b → ¬ lt c a)
    (l : List α) (hl : l.Pairwise S) :
    (stableSort lt l).Pairwise (fun a b => lt a b ∨ (¬ lt a b ∧ ¬ lt b a ∧ S a b)) := by
  induction l with
  | nil => simp [stableSort]
  | cons x xs ih =>
    rw [List.pairwise_cons] at hl
    rw [stableSort]
    apply insStable_pairwise lt S hltS hneg x _ (ih hl.2)
    intro y hy
    exact hl.1 y ((stableSort_perm lt xs).mem_iff.mp hy)

lemma pairsOf_mem {α : Type} {l : List α} {ab : α × α} (h : ab ∈ pairsOf l) :
    ab.1 ∈ l ∧ ab.2 ∈ l := by
  induction l with
  | nil => simp [pairsOf] at h
  | cons x xs ih =>
    rw [pairsOf] at h
    rcases List.mem_append.mp h with h1 | h2
    · obtain ⟨y, hy, rfl⟩ := List.mem_map.mp h1
      exact ⟨List.mem_cons_self _ _, List.mem_cons_of_mem _ hy⟩
    · obtain ⟨h3, h4⟩ := ih h2
      exact ⟨List.mem_cons_of_mem _ h3, List.mem_cons_of_mem _ h4⟩

lemma pairsOf_rel {α : Type} {R : α → α → Prop} {l : List α} (hl : l.Pairwise R) :
    ∀ ab ∈ pairsOf l, R ab.1 ab.2 := by
  induction l with
  | nil => simp [pairsOf]
  | cons x xs ih =>
    rw [List.pairwise_cons] at hl
    intro ab hab
    rw [pairsOf] at hab
    rcases List.mem_append.mp hab with h1 | h2
    · obtain ⟨y, hy, rfl⟩ := List.mem_map.mp h1
      exact hl.1 y hy
    · exact ih hl.2 ab h2

lemma pairsOf_pairwise {α : Type} {R : α → α → Prop} {l : List α} (hl : l.Pairwise R) :
    (pairsOf l).Pairwise (fun ab cd => R ab.1 cd.1 ∨ (ab.1 = cd.1 ∧ R ab.2 cd.2)) := by
  induction l with
  | nil => simp [pairsOf]
  | cons x xs ih =>
    rw [List.pairwise_cons] at hl
    rw [pairsOf]
    refine List.pairwise_append.mpr ⟨?_, ih hl.2, ?_⟩
    · rw [List.pairwise_map]
      exact hl.2.imp (fun hr => Or.inr ⟨rfl, hr⟩)
    · intro a ha b hb
      obtain ⟨y, _, rfl⟩ := List.mem_map.mp ha
      exact Or.inl (hl.1 _ (pairsOf_mem hb).1)

lemma pairwise_filterMap {α β : Type} {R : α → α → Prop} {S : β → β → Prop}
    (f : α → Option β)
    (hf : ∀ a b, R a b → ∀ x, f a = some x → ∀ y, f b = some y → S x y) :
    ∀ {l : List α}, l.Pairwise R → (l.filterMap f).Pairwise S := by
  intro l hl
  induction hl with
  | nil => simp
  | @cons a l ha _ ih =>
    rw [List.filterMap_cons]
    cases hfa : f a with
    | none => exact ih
    | some b =>
      rw [List.pairwise_cons]
      refine ⟨?_, ih⟩
      intro y hy
      obtain ⟨a2, ha2, hfa2⟩ := List.mem_filterMap.mp hy
      exact hf a a2 (ha a2 ha2) b hfa y hfa2

lemma strLt_not_lt_le {a b : String} (h : ¬ strLt b a) : a ≤ b := by
  rw [strLt_iff] at h
  exact not_lt.mp h

lemma strLt_of_le_of_lt {a b c : String} (h1 : a ≤ b) (h2 : strLt b c) : strLt a c := by
  rw [strLt_iff] at h2 ⊢
  exact lt_of_le_of_lt h1 h2

lemma byNameLt_compat :
    ∀ a b c : Skill, ¬ byNameLt b a → byNameLt b c → byNameLt a c := by
  intro a b c h1 h2
  exact strLt_of_le_of_lt (strLt_not_lt_le h1) h2

lemma byNameLt_negtrans :
    ∀ a b c : Skill, ¬ byNameLt b a → ¬ byNameLt c b → ¬ byNameLt c a := by
  intro a b c h1 h2 hc
  rw [byNameLt, strLt_iff] at hc
  exact absurd (lt_of_lt_of_le hc (strLt_not_lt_le h1)) (by
    rw [byNameLt, strLt_iff] at h2
    exact fun h => h2 h)

lemma compositeGt_compat :
    ∀ a b c : OverlapRec, ¬ compositeGt b a → compositeGt b c → compositeGt a c := by
  intro a b c h1 h2
  rw [compositeGt, not_lt] at h1
  rw [compositeGt] at h2 ⊢
  exact lt_of_lt_of_le h2 h1

lemma compositeGt_negtrans :
    ∀ a b c : OverlapRec, ¬ compositeGt b a → ¬ compositeGt c b → ¬ compositeGt c a := by
  intro a b c h1 h2
  rw [compositeGt, not_lt] at h1 h2 ⊢
  exact le_trans h2 h1

/-- `compute_overlap` unfolded: filter the sorted pairs through the
reporting gate, then stable-sort by stored composite, descending. -/
lemma compute_overlap_def (skills : List Skill) :
    compute_overlap skills =
      stableSort compositeGt
        ((pairsOf (stableSort byNameLt skills)).filterMap fun ab =>
          if mkRat 3 20 < compositeScore ab.1 ab.2 then some (mkRecord ab.1 ab.2) else none) :=
  rfl

lemma threshold_eq : (mkRat 3 20 : ℚ) = (0.15 : ℚ) := by
  rw [Rat.mkRat_eq_div]
  norm_num

lemma name_inj {skills : List Skill} (h : (skills.map Skill.name).Nodup) :
    ∀ x ∈ skills, ∀ y ∈ skills, x.name = y.name → x = y :=
  fun _ hx _ hy => List.inj_on_of_nodup_map h hx hy

lemma sortByName_pairwise {skills : List Skill} (h : (skills.map Skill.name).Nodup) :
    (stableSort byNameLt skills).Pairwise byNameLt := by
  have htriv : skills.Pairwise (fun _ _ => True) := by
    clear h
    induction skills with
    | nil => exact List.Pairwise.nil
    | cons x xs ih => exact List.Pairwise.cons (fun _ _ => trivial) ih
  have hq := stableSort_pairwise byNameLt (fun _ _ => True)
    byNameLt_compat byNameLt_negtrans skills htriv
  have hnodup : ((stableSort byNameLt skills).map Skill.name).Nodup := by
    have hperm := (stableSort_perm byNameLt skills).map Skill.name
    exact hperm.nodup_iff.mpr h
  have hne : (stableSort byNameLt skills).Pairwise (fun s t => s.name ≠ t.name) :=
    List.pairwise_map.mp hnodup
  refine (hq.and hne).imp ?_
  rintro a b ⟨hq1, hne1⟩
  rcases hq1 with hlt | ⟨h1, h2, _⟩
  · exact hlt
  · exact absurd (le_antisymm (strLt_not_lt_le h2) (strLt_not_lt_le h1)) hne1

/-- C5: in every emitted record the pair is listed in lexicographic
name order, and the emitted list is ordered by stored composite
descending, ties broken by the pair's lexicographic order. -/
theorem c5_pair_order_and_list_order (skills : List Skill)
    (h : (skills.map Skill.name).Nodup) :
    (∀ o ∈ compute_overlap skills, strLt o.pair.1 o.pair.2) ∧
    (compute_overlap skills).Pairwise (fun r s =>
      s.composite < r.composite ∨
        (r.composite = s.composite ∧
          (strLt r.pair.1 s.pair.1 ∨ (r.pair.1 = s.pair.1 ∧ strLt r.pair.2 s.pair.2)))) := by
  have hsorted := sortByName_pairwise h
  constructor
  · intro o ho
    rw [compute_overlap_def] at ho
    have ho2 := (stableSort_perm compositeGt _).mem_iff.mp ho
    obtain ⟨ab, hab, hif⟩ := List.mem_filterMap.mp ho2
    have hlt := pairsOf_rel hsorted ab hab
    split_ifs at hif with hgate
    obtain rfl := Option.some.inj hif
    exact hlt
  · rw [compute_overlap_def]
    have hcand : ((pairsOf (stableSort byNameLt skills)).filterMap
        (fun ab : Skill × Skill =>
          if mkRat 3 20 < compositeScore ab.1 ab.2 then some (mkRecord ab.1 ab.2)
          else none)).Pairwise
        (fun x y : OverlapRec =>
          strLt x.pair.1 y.pair.1 ∨ (x.pair.1 = y.pair.1 ∧ strLt x.pair.2 y.pair.2)) := by
      refine pairwise_filterMap _ ?_ (pairsOf_pairwise hsorted)
      intro ab cd hr x hx y hy
      split_ifs at hx hy
      obtain rfl := Option.some.inj hx
      obtain rfl := Option.some.inj hy
      rcases hr with h1 | ⟨heq, h2⟩
      · exact Or.inl h1
      · exact Or.inr ⟨congrArg Skill.name heq, h2⟩
    have hout := stableSort_pairwise compositeGt
      (fun x y : OverlapRec =>
        strLt x.pair.1 y.pair.1 ∨ (x.pair.1 = y.pair.1 ∧ strLt x.pair.2 y.pair.2))
      compositeGt_compat compositeGt_negtrans _ hcand
    refine hout.imp ?_
    rintro r s (hlt | ⟨h1, h2, h3⟩)
    · exact Or.inl hlt
    · rw [compositeGt, not_lt] at h1 h2
      exact Or.inr ⟨le_antisymm h1 h2, h3⟩

theorem c5_pair_order_and_list_order_witness :
    ((([ skDeployA, skDeployB ] : List Skill)).map Skill.name).Nodup ∧
    ((∀ o ∈ compute_overlap [ skDeployA, skDeployB ], strLt o.pair.1 o.pair.2) ∧
      (compute_overlap [ skDeployA, skDeployB ]).Pairwise (fun r s =>
        s.composite < r.composite ∨
          (r.composite = s.composite ∧
            (strLt r.pair.1 s.pair.1 ∨ (r.pair.1 = s.pair.1 ∧ strLt r.pair.2 s.pair.2))))) :=
  ⟨by decide, c5_pair_order_and_list_order [ skDeployA, skDeployB ] (by decide)⟩

/-- C1: a record for a name-sorted pair of distinct skills is in the
overlap output exactly when the pair's unrounded composite strictly
exceeds 0.15, and everything in the output arises that way; a pair with
composite at or below 0.15 is never emitted. -/
theorem c1_overlap_iff_gate (skills : List Skill) (h : (skills.map Skill.name).Nodup) :
    (∀ fa fb, (fa, fb) ∈ pairsOf (stableSort byNameLt skills) →
      (mkRecord fa fb ∈ compute_overlap skills ↔ (0.15 : ℚ) < compositeScore fa fb)) ∧
    (∀ o ∈ compute_overlap skills, ∃ fa fb,
      (fa, fb) ∈ pairsOf (stableSort byNameLt skills) ∧ o = mkRecord fa fb ∧
        (0.15 : ℚ) < compositeScore fa fb) := by
  have hmem : ∀ o, o ∈ compute_overlap skills ↔
      ∃ ab ∈ pairsOf (stableSort byNameLt skills),
        mkRat 3 20 < compositeScore ab.1 ab.2 ∧ mkRecord ab.1 ab.2 = o := by
    intro o
    rw [compute_overlap_def, (stableSort_perm compositeGt _).mem_iff, List.mem_filterMap]
    constructor
    · rintro ⟨ab, hab, hif⟩
      split_ifs at hif with hgate
      exact ⟨ab, hab, hgate, Option.some.inj hif⟩
    · rintro ⟨ab, hab, hgate, heq⟩
      exact ⟨ab, hab, by rw [if_pos hgate, heq]⟩
  have hskills_mem : ∀ z, z ∈ stableSort byNameLt skills → z ∈ skills :=
    fun z hz => (stableSort_perm byNameLt skills).mem_iff.mp hz
  constructor
  · intro fa fb hpair
    rw [hmem]
    constructor
    · rintro ⟨ab, hab, hgate, heq⟩
      have hpe : (ab.1.name, ab.2.name) = (fa.name, fb.name) := congrArg OverlapRec.pair heq
      rw [Prod.mk.injEq] at hpe
      have e1 : ab.1 = fa := name_inj h _ (hskills_mem _ (pairsOf_mem hab).1)
        _ (hskills_mem _ (pairsOf_mem hpair).1) hpe.1
      have e2 : ab.2 = fb := name_inj h _ (hskills_mem _ (pairsOf_mem hab).2)
        _ (hskills_mem _ (pairsOf_mem hpair).2) hpe.2
      rw [← e1, ← e2, ← threshold_eq]
      exact hgate
    · intro hgate
      exact ⟨(fa, fb), hpair, by rw [threshold_eq]; exact hgate, rfl⟩
  · intro o ho
    obtain ⟨ab, hab, hgate, heq⟩ := (hmem o).mp ho
    exact ⟨ab.1, ab.2, hab, heq.symm, by rw [← threshold_eq]; exact hgate⟩

theorem c1_overlap_iff_gate_witness :
    ((([ skDeployA, skDeployB ] : List Skill)).map Skill.name).Nodup ∧
    ((∀ fa fb, (fa, fb) ∈ pairsOf (stableSort byNameLt [ skDeployA, skDeployB ]) →
      (mkRecord fa fb ∈ compute_overlap [ skDeployA, skDeployB ] ↔
        (0.15 : ℚ) < compositeScore fa fb)) ∧
    (∀ o ∈ compute_overlap [ skDeployA, skDeployB ], ∃ fa fb,
      (fa, fb) ∈ pairsOf (stableSort byNameLt [ skDeployA, skDeployB ]) ∧ o = mkRecord fa fb ∧
        (0.15 : ℚ) < compositeScore fa fb)) :=
  ⟨by decide, c1_overlap_iff_gate [ skDeployA, skDeployB ] (by decide)⟩

lemma pget_mem : ∀ {p : PMap} {x : String}, pget p x ≠ x → (x, pget p x) ∈ p := by
  intro p
  induction p with
  | nil =>
    intro x h
    simp [pget] at h
  | cons kv rest ih =>
    obtain ⟨k, v⟩ := kv
    intro x h
    rw [pget] at h
    by_cases hk : k = x
    · rw [if_pos hk] at h
      rw [pget, if_pos hk]
      cases hk
      exact List.mem_cons_self _ _
    · rw [if_neg hk] at h
      rw [pget, if_neg hk]
      exact List.mem_cons_of_mem _ (ih h)

lemma pget_not_mem : ∀ {p : PMap} {x : String}, x ∉ p.map Prod.fst → pget p x = x := by
  intro p
  induction p with
  | nil =>
    intro x _
    rfl
  | cons kv rest ih =>
    obtain ⟨k, v⟩ := kv
    intro x h
    rw [List.map_cons, List.mem_cons] at h
    push_neg at h
    rw [pget, if_neg (fun hk => h.1 hk.symm)]
    exact ih h.2

lemma pget_of_mem : ∀ {p : PMap} {x v : String}, (p.map Prod.fst).Nodup → (x, v) ∈ p →
    pget p x = v := by
  intro p
  induction p with
  | nil =>
    intro x v _ h
    simp at h
  | cons kv rest ih =>
    obtain ⟨k, w⟩ := kv
    intro x v hnodup h
    rw [List.map_cons, List.nodup_cons] at hnodup
    rcases List.mem_cons.mp h with heq | hmem
    · obtain ⟨h1, h2⟩ := Prod.mk.injEq .. ▸ heq
      rw [pget, if_pos h1.symm]
      exact h2.symm
    · by_cases hk : k = x
      · exfalso
        apply hnodup.1
        rw [hk]
        exact List.mem_map.mpr ⟨(x, v), hmem, rfl⟩
      · rw [pget, if_neg hk]
        exact ih hnodup.2 hmem

lemma mem_keys_iff_pget {p : PMap} (hnodup : (p.map Prod.fst).Nodup)
    (hns : ∀ q ∈ p, q.1 ≠ q.2) (x : String) :
    x ∈ p.map Prod.fst ↔ pget p x ≠ x := by
  constructor
  · intro h
    obtain ⟨q, hq, hqx⟩ := List.mem_map.mp h
    have : pget p q.1 = q.2 := pget_of_mem hnodup (by rw [← Prod.mk.eta (p := q)] at hq; exact hq)
    rw [← hqx, this]
    exact fun hc => hns q hq hc.symm
  · intro h
    exact List.mem_map.mpr ⟨(x, pget p x), pget_mem h, rfl⟩

lemma dset_mem_sub : ∀ {p : PMap} {k v : String} {q : String × String},
    q ∈ dset p k v → q = (k, v) ∨ q ∈ p := by
  intro p
  induction p with
  | nil =>
    intro k v q h
    rw [dset] at h
    rcases List.mem_cons.mp h with h | h
    · exact Or.inl h
    · simp at h
  | cons kv rest ih =>
    obtain ⟨k1, v1⟩ := kv
    intro k v q h
    rw [dset] at h
    split_ifs at h with hk
    · rcases List.mem_cons.mp h with h | h
      · exact Or.inl h
      · exact Or.inr (List.mem_cons_of_mem _ h)
    · rcases List.mem_cons.mp h with h | h
      · exact Or.inr (h ▸ List.mem_cons_self _ _)
      · rcases ih h with h2 | h2
        · exact Or.inl h2
        · exact Or.inr (List.mem_cons_of_mem _ h2)

lemma dset_keys_of_mem : ∀ {p : PMap} {k : String} (v : String), k ∈ p.map Prod.fst →
    (dset p k v).map Prod.fst = p.map Prod.fst := by
  intro p
  induction p with
  | nil =>
    intro k v h
    simp at h
  | cons kv rest ih =>
    obtain ⟨k1, v1⟩ := kv
    intro k v h
    rw [dset]
    split_ifs with hk
    · rw [List.map_cons, List.map_cons, hk]
    · rw [List.map_cons, List.map_cons]
      congr 1
      apply ih
      rw [List.map_cons, List.mem_cons] at h
      rcases h with h | h
      · exact absurd h.symm hk
      · exact h

lemma dset_of_not_mem : ∀ {p : PMap} {k : String} (v : String), k ∉ p.map Prod.fst →
    dset p k v = p ++ [(k, v)] := by
  intro p
  induction p with
  | nil =>
    intro k v _
    rfl
  | cons kv rest ih =>
    obtain ⟨k1, v1⟩ := kv
    intro k v h
    rw [List.map_cons, List.mem_cons] at h
    push_neg at h
    rw [dset, if_neg (fun hk => h.1 hk.symm), List.cons_append]
    congr 1
    exact ih v h.2

lemma pget_dset : ∀ {p : PMap} {k v z : String},
    pget (dset p k v) z = if z = k then v else pget p z := by
  intro p
  induction p with
  | nil =>
    intro k v z
    rw [dset]
    conv_lhs => rw [pget]
    by_cases hz : z = k
    · rw [if_pos (show k = z from hz.symm), if_pos hz]
    · rw [if_neg (show ¬ k = z from fun h => hz h.symm), if_neg hz]
  | cons kv rest ih =>
    obtain ⟨k1, v1⟩ := kv
    intro k v z
    rw [dset]
    by_cases hk : k1 = k
    · rw [if_pos hk]
      conv_lhs => rw [pget]
      conv_rhs => rw [pget]
      by_cases hz : z = k
      · rw [if_pos (show k = z from hz.symm), if_pos hz]
      · rw [if_neg (show ¬ k = z from fun h => hz h.symm), if_neg hz,
          if_neg (show ¬ k1 = z from fun h => hz (by rw [← h, hk]))]
    · rw [if_neg hk]
      conv_lhs => rw [pget]
      conv_rhs => rw [pget]
      by_cases h1 : k1 = z
      · rw [if_pos h1, if_pos h1, if_neg (show ¬ z = k from fun h2 => hk (h1.trans h2))]
      · rw [if_neg h1, if_neg h1, ih]

lemma pget_append_of_mem : ∀ {p : PMap} (l : PMap) {z : String}, z ∈ p.map Prod.fst →
    pget (p ++ l) z = pget p z := by
  intro p
  induction p with
  | nil =>
    intro l z h
    simp at h
  | cons kv rest ih =>
    obtain ⟨k, v⟩ := kv
    intro l z h
    rw [List.cons_append, pget, pget]
    by_cases hk : k = z
    · rw [if_pos hk, if_pos hk]
    · rw [if_neg hk, if_neg hk]
      apply ih
      rw [List.map_cons, List.mem_cons] at h
      rcases h with h | h
      · exact absurd h.symm hk
      · exact h

lemma pget_append_of_not_mem : ∀ {p : PMap} (l : PMap) {z : String}, z ∉ p.map Prod.fst →
    pget (p ++ l) z = pget l z := by
  intro p
  induction p with
  | nil =>
    intro l z _
    rfl
  | cons kv rest ih =>
    obtain ⟨k, v⟩ := kv
    intro l z h
    rw [List.map_cons, List.mem_cons] at h
    push_neg at h
    rw [List.cons_append, pget, if_neg (fun hk => h.1 hk.symm)]
    exact ih l h.2

lemma chainN_det : ∀ {p : PMap} {n : ℕ} {x r : String}, ChainN p n x r →
    ∀ {m : ℕ} {r2 : String}, ChainN p m x r2 → r = r2 := by
  intro p n x r h1
  induction h1 with
  | root x hx =>
    intro m r2 h2
    cases h2 with
    | root _ _ => rfl
    | step _ _ _ hne _ => exact absurd hx hne
  | step n x r hne hc ih =>
    intro m r2 h2
    cases h2 with
    | root _ hx => exact absurd hx hne
    | step _ _ _ _ hc2 => exact ih hc2

lemma chainN_root_fix : ∀ {p : PMap} {n : ℕ} {x r : String}, ChainN p n x r →
    pget p r = r := by
  intro p n x r h
  induction h with
  | root _ hx => exact hx
  | step _ _ _ _ _ ih => exact ih

lemma chain_exists_rank {p : PMap} {f : String → ℕ}
    (hf : ∀ q ∈ p, f q.1 < f q.2) (x : String) :
    ∃ n r, ChainN p n x r ∧ n ≤ p.length := by
  have key : ∀ m z, ((p.map Prod.fst).toFinset.filter (fun k => f z ≤ f k)).card ≤ m →
      ∃ n r, ChainN p n z r ∧
        n ≤ ((p.map Prod.fst).toFinset.filter (fun k => f z ≤ f k)).card := by
    intro m
    induction m with
    | zero =>
      intro z hz
      by_cases hroot : pget p z = z
      · exact ⟨0, z, ChainN.root z hroot, Nat.zero_le _⟩
      · exfalso
        have hmem : (z, pget p z) ∈ p := pget_mem hroot
        have hz2 : z ∈ (p.map Prod.fst).toFinset.filter (fun k => f z ≤ f k) := by
          rw [Finset.mem_filter]
          exact ⟨List.mem_toFinset.mpr (List.mem_map.mpr ⟨(z, pget p z), hmem, rfl⟩), le_refl _⟩
        have := Finset.card_pos.mpr ⟨z, hz2⟩
        omega
    | succ m ih =>
      intro z hz
      by_cases hroot : pget p z = z
      · exact ⟨0, z, ChainN.root z hroot, Nat.zero_le _⟩
      · have hmem : (z, pget p z) ∈ p := pget_mem hroot
        have hrank : f z < f (pget p z) := hf _ hmem
        have hsub : (p.map Prod.fst).toFinset.filter (fun k => f (pget p z) ≤ f k) ⊆
            (p.map Prod.fst).toFinset.filter (fun k => f z ≤ f k) := by
          intro k hk
          rw [Finset.mem_filter] at hk ⊢
          exact ⟨hk.1, le_trans (le_of_lt hrank) hk.2⟩
        have hzin : z ∈ (p.map Prod.fst).toFinset.filter (fun k => f z ≤ f k) := by
          rw [Finset.mem_filter]
          exact ⟨List.mem_toFinset.mpr (List.mem_map.mpr ⟨(z, pget p z), hmem, rfl⟩), le_refl _⟩
        have hzout : z ∉ (p.map Prod.fst).toFinset.filter (fun k => f (pget p z) ≤ f k) := by
          rw [Finset.mem_filter]
          rintro ⟨_, hle⟩
          omega
        have hlt : ((p.map Prod.fst).toFinset.filter (fun k => f (pget p z) ≤ f k)).card <
            ((p.map Prod.fst).toFinset.filter (fun k => f z ≤ f k)).card := by
          apply Finset.card_lt_card
          rw [Finset.ssubset_iff_of_subset hsub]
          exact ⟨z, hzin, hzout⟩
        obtain ⟨n, r, hc, hn⟩ := ih (pget p z) (by omega)
        exact ⟨n + 1, r, ChainN.step n z r hroot hc, by omega⟩
  obtain ⟨n, r, hc, hn⟩ := key _ x (le_refl _)
  refine ⟨n, r, hc, le_trans hn ?_⟩
  calc ((p.map Prod.fst).toFinset.filter (fun k => f x ≤ f k)).card
      ≤ (p.map Prod.fst).toFinset.card := Finset.card_le_card (Finset.filter_subset _ _)
    _ ≤ (p.map Prod.fst).length := (p.map Prod.fst).toFinset_card_le
    _ = p.length := List.length_map p Prod.fst

lemma chase_of_chain : ∀ {p : PMap} {n : ℕ} {x r : String}, ChainN p n x r →
    ∀ {fuel : ℕ}, n < fuel → chase fuel p x = r := by
  intro p n x r h
  induction h with
  | root x hx =>
    intro fuel hfuel
    cases fuel with
    | zero => omega
    | succ m => rw [chase, if_pos hx]
  | step n x r hne hc ih =>
    intro fuel hfuel
    cases fuel with
    | zero => omega
    | succ m =>
      rw [chase, if_neg hne]
      exact ih (by omega)

lemma rootD_chain {R : String → String → Prop} {p : PMap} (hInv : UFInv R p) (x : String) :
    ∃ n, n ≤ p.length ∧ ChainN p n x (rootD p x) := by
  obtain ⟨f, hf⟩ := hInv.ranked
  obtain ⟨n, r, hc, hn⟩ := chain_exists_rank hf x
  have : rootD p x = r := chase_of_chain hc (by omega)
  exact ⟨n, hn, this ▸ hc⟩

lemma rootD_eq_of_chain {R : String → String → Prop} {p : PMap} (hInv : UFInv R p)
    {n : ℕ} {x r : String} (hc : ChainN p n x r) : rootD p x = r := by
  obtain ⟨m, _, hc2⟩ := rootD_chain hInv x
  exact chainN_det hc2 hc

lemma rootD_isRoot {R : String → String → Prop} {p : PMap} (hInv : UFInv R p) (x : String) :
    pget p (rootD p x) = rootD p x := by
  obtain ⟨m, _, hc⟩ := rootD_chain hInv x
  exact chainN_root_fix hc

lemma chain_conn {R : String → String → Prop} {p : PMap} (hInv : UFInv R p) :
    ∀ {n : ℕ} {x r : String}, ChainN p n x r → Relation.EqvGen R x r := by
  intro n x r h
  induction h with
  | root x _ => exact Relation.EqvGen.refl x
  | step n x r hne hc ih =>
    have hmem : (x, pget p x) ∈ p := pget_mem hne
    exact Relation.EqvGen.trans _ _ _ (hInv.linkConn _ hmem) ih

lemma conn_rootD {R : String → String → Prop} {p : PMap} (hInv : UFInv R p) (x : String) :
    Relation.EqvGen R x (rootD p x) := by
  obtain ⟨n, _, hc⟩ := rootD_chain hInv x
  exact chain_conn hInv hc

lemma chainN_step_eq {p : PMap} {n : ℕ} {z w r : String} (h1 : pget p z = w) (h2 : w ≠ z)
    (hc : ChainN p n w r) : ChainN p (n + 1) z r := by
  subst h1
  exact ChainN.step n z r h2 hc

lemma chainN_root_of_eq {p : PMap} {a b : String} (hab : a = b) (h : pget p a = a) :
    ChainN p 0 a b := by
  subst hab
  exact ChainN.root a h

lemma halve_step {R : String → String → Prop} {p : PMap} {x : String}
    (hInv : UFInv R p) (hne : pget p x ≠ x) :
    UFInv R (dset p x (pget p (pget p x))) ∧
    (dset p x (pget p (pget p x))).map Prod.fst = p.map Prod.fst ∧
    (∀ n z r, ChainN p n z r →
      ∃ n2, n2 ≤ n ∧ ChainN (dset p x (pget p (pget p x))) n2 z r) ∧
    (∀ z, rootD (dset p x (pget p (pget p x))) z = rootD p z) ∧
    (∀ n r, ChainN p n x r →
      ∃ n2, n2 + 1 ≤ n ∧ ChainN (dset p x (pget p (pget p x))) n2 (pget p (pget p x)) r) := by
  obtain ⟨f, hf⟩ := hInv.ranked
  have hmem : (x, pget p x) ∈ p := pget_mem hne
  have hxkeys : x ∈ p.map Prod.fst := List.mem_map.mpr ⟨_, hmem, rfl⟩
  have hrank1 : f x < f (pget p x) := hf _ hmem
  have hrankg : f x < f (pget p (pget p x)) := by
    by_cases hroot : pget p (pget p x) = pget p x
    · rw [hroot]
      exact hrank1
    · exact lt_trans hrank1 (hf _ (pget_mem hroot))
  have hgx : pget p (pget p x) ≠ x := by
    intro h
    rw [h] at hrankg
    exact lt_irrefl _ hrankg
  have hkeys : (dset p x (pget p (pget p x))).map Prod.fst = p.map Prod.fst :=
    dset_keys_of_mem _ hxkeys
  have hpg : ∀ z, pget (dset p x (pget p (pget p x))) z =
      if z = x then pget p (pget p x) else pget p z := fun z => pget_dset
  have hInv2 : UFInv R (dset p x (pget p (pget p x))) := by
    constructor
    · rw [hkeys]
      exact hInv.nodupKeys
    · intro q hq
      rcases dset_mem_sub hq with rfl | hq2
      · exact fun h => hgx h.symm
      · exact hInv.noSelf q hq2
    · refine ⟨f, ?_⟩
      intro q hq
      rcases dset_mem_sub hq with rfl | hq2
      · exact hrankg
      · exact hf q hq2
    · intro q hq
      rcases dset_mem_sub hq with rfl | hq2
      · have h1 : Relation.EqvGen R x (pget p x) := hInv.linkConn _ hmem
        by_cases hroot : pget p (pget p x) = pget p x
        · rw [hroot]
          exact h1
        · exact Relation.EqvGen.trans _ _ _ h1 (hInv.linkConn _ (pget_mem hroot))
      · exact hInv.linkConn q hq2
  have htransfer : ∀ n z r, ChainN p n z r →
      ∃ n2, n2 ≤ n ∧ ChainN (dset p x (pget p (pget p x))) n2 z r := by
    intro n
    induction n using Nat.strong_induction_on with
    | _ n ih =>
      intro z r hc
      cases hc with
      | root z hz =>
        have hzx : z ≠ x := by
          intro h
          rw [h] at hz
          exact hne hz
        refine ⟨0, le_refl 0, ChainN.root z ?_⟩
        rw [hpg z, if_neg hzx, hz]
      | step m z r hz hsub =>
        by_cases hzx : z = x
        · subst hzx
          by_cases hroot : pget p (pget p z) = pget p z
          · cases hsub with
            | root _ h2 =>
              refine ⟨1, by omega, ?_⟩
              refine chainN_step_eq (by rw [hpg z, if_pos rfl]) hgx ?_
              refine chainN_root_of_eq hroot ?_
              rw [hpg, if_neg hgx]
              rw [hroot]
              exact hroot
            | step m2 _ _ hz2 hsub2 => exact absurd hroot hz2
          · cases hsub with
            | root _ h2 => exact absurd h2 hroot
            | step m2 _ _ hz2 hsub2 =>
              obtain ⟨n3, hn3, hc3⟩ := ih m2 (by omega) _ _ hsub2
              refine ⟨n3 + 1, by omega, ?_⟩
              exact chainN_step_eq (by rw [hpg z, if_pos rfl]) hgx hc3
        · obtain ⟨n3, hn3, hc3⟩ := ih m (by omega) _ _ hsub
          refine ⟨n3 + 1, by omega, ?_⟩
          exact chainN_step_eq (by rw [hpg z, if_neg hzx]) hz hc3
  have hroots : ∀ z, rootD (dset p x (pget p (pget p x))) z = rootD p z := by
    intro z
    obtain ⟨n, _, hc⟩ := rootD_chain hInv z
    obtain ⟨n2, _, hc2⟩ := htransfer n z _ hc
    exact rootD_eq_of_chain hInv2 hc2
  refine ⟨hInv2, hkeys, htransfer, hroots, ?_⟩
  intro n r hc
  cases hc with
  | root _ h2 => exact absurd h2 hne
  | step m _ _ hz hsub =>
    by_cases hroot : pget p (pget p x) = pget p x
    · cases hsub with
      | root _ h2 =>
        refine ⟨0, by omega, chainN_root_of_eq hroot ?_⟩
        rw [hpg, if_neg hgx, hroot]
        exact hroot
      | step m2 _ _ hz2 _ => exact absurd hroot hz2
    · cases hsub with
      | root _ h2 => exact absurd h2 hroot
      | step m2 _ _ hz2 hsub2 =>
        obtain ⟨n3, hn3, hc3⟩ := htransfer m2 _ _ hsub2
        exact ⟨n3, by omega, hc3⟩

lemma ufFind_spec {R : String → String → Prop} :
    ∀ (fuel : ℕ) (p : PMap) (x : String) {n : ℕ} {r : String}, UFInv R p →
      ChainN p n x r → n < fuel →
      (ufFind fuel p x).2 = r ∧ UFInv R (ufFind fuel p x).1 ∧
      (ufFind fuel p x).1.map Prod.fst = p.map Prod.fst ∧
      (∀ z, rootD (ufFind fuel p x).1 z = rootD p z) := by
  intro fuel
  induction fuel with
  | zero =>
    intro p x n r _ _ hfuel
    omega
  | succ m ih =>
    intro p x n r hInv hc hfuel
    by_cases hroot : pget p x = x
    · have hres : ufFind (m + 1) p x = (p, x) := by
        rw [ufFind]
        simp [hroot]
      have hr : r = x := by
        cases hc with
        | root _ _ => rfl
        | step _ _ _ hz _ => exact absurd hroot hz
      rw [hres, hr]
      exact ⟨rfl, hInv, rfl, fun z => rfl⟩
    · have hres : ufFind (m + 1) p x =
          ufFind m (dset p x (pget p (pget p x))) (pget p (pget p x)) := by
        rw [ufFind]
        simp [hroot]
      obtain ⟨hInv2, hkeys, _, hroots, hhead⟩ := halve_step hInv hroot
      obtain ⟨n2, hn2, hc2⟩ := hhead n r hc
      have hn2m : n2 < m := by omega
      obtain ⟨ih1, ih2, ih3, ih4⟩ := ih _ _ hInv2 hc2 hn2m
      rw [hres]
      refine ⟨ih1, ih2, by rw [ih3, hkeys], ?_⟩
      intro z
      rw [ih4 z, hroots z]

lemma ufFindCall_spec {R : String → String → Prop} {p : PMap} (hInv : UFInv R p)
    (x : String) :
    (ufFindCall p x).2 = rootD p x ∧ UFInv R (ufFindCall p x).1 ∧
    (ufFindCall p x).1.map Prod.fst = p.map Prod.fst ∧
    (∀ z, rootD (ufFindCall p x).1 z = rootD p z) := by
  obtain ⟨n, hn, hc⟩ := rootD_chain hInv x
  exact ufFind_spec (p.length + 1) p x hInv hc (by omega)

lemma le_foldr_max (l : List ℕ) (b : ℕ) :
    b ≤ l.foldr max b ∧ ∀ a ∈ l, a ≤ l.foldr max b := by
  induction l with
  | nil => exact ⟨le_refl _, by simp⟩
  | cons c cs ih =>
    constructor
    · exact le_trans ih.1 (le_max_right c _)
    · intro a ha
      rcases List.mem_cons.mp ha with rfl | ha2
      · exact le_max_left _ _
      · exact le_trans (ih.2 a ha2) (le_max_right c _)

lemma pget_single {k v w : String} : pget [(k, v)] w = if k = w then v else w := by
  rw [pget]
  by_cases h : k = w
  · rw [if_pos h, if_pos h]
  · rw [if_neg h, if_neg h, pget]

lemma root_not_key {R : String → String → Prop} {p : PMap} (hInv : UFInv R p)
    {w : String} (hw : pget p w = w) : w ∉ p.map Prod.fst := by
  intro hk
  exact (mem_keys_iff_pget hInv.nodupKeys hInv.noSelf w).mp hk hw

lemma chain_append_of_ne {R : String → String → Prop} {p2 : PMap} {rx ry : String}
    (hInv2 : UFInv R p2) :
    ∀ {n : ℕ} {z rz : String}, rz ≠ rx → ChainN p2 n z rz →
      ChainN (p2 ++ [(rx, ry)]) n z rz := by
  intro n z rz hner hc
  revert hner
  induction hc with
  | root w hw =>
    intro hner
    refine ChainN.root w ?_
    have hwk : w ∉ p2.map Prod.fst := root_not_key hInv2 hw
    rw [pget_append_of_not_mem _ hwk, pget_single, if_neg (fun h => hner h.symm)]
  | step m w rz hw hsub ih =>
    intro hner
    have hwk : w ∈ p2.map Prod.fst := List.mem_map.mpr ⟨_, pget_mem hw, rfl⟩
    exact chainN_step_eq (pget_append_of_mem _ hwk) hw (ih hner)

lemma chain_append_to_new {R : String → String → Prop} {p2 : PMap} {ry : String}
    (hInv2 : UFInv R p2) (hryk : ry ∉ p2.map Prod.fst) :
    ∀ {n : ℕ} {z rx : String}, rx ≠ ry → ChainN p2 n z rx →
      ChainN (p2 ++ [(rx, ry)]) (n + 1) z ry := by
  intro n z rx hne hc
  revert hne
  induction hc with
  | root w hw =>
    intro hne
    have hwk : w ∉ p2.map Prod.fst := root_not_key hInv2 hw
    refine chainN_step_eq ?_ (Ne.symm hne) ?_
    · rw [pget_append_of_not_mem _ hwk, pget_single, if_pos rfl]
    · refine ChainN.root ry ?_
      rw [pget_append_of_not_mem _ hryk, pget_single, if_neg hne]
  | step m w _ hw hsub ih =>
    intro hne
    have hwk : w ∈ p2.map Prod.fst := List.mem_map.mpr ⟨_, pget_mem hw, rfl⟩
    exact chainN_step_eq (pget_append_of_mem _ hwk) hw (ih hne)

lemma append_link_inv {R : String → String → Prop} {p2 : PMap} {rx ry : String}
    (hInv2 : UFInv R p2) (hrxk : rx ∉ p2.map Prod.fst) (hryk : ry ∉ p2.map Prod.fst)
    (hne : rx ≠ ry) (hconn : Relation.EqvGen R rx ry) :
    UFInv R (p2 ++ [(rx, ry)]) ∧
    (∀ z, rootD (p2 ++ [(rx, ry)]) z = if rootD p2 z = rx then ry else rootD p2 z) := by
  have hInv3 : UFInv R (p2 ++ [(rx, ry)]) := by
    constructor
    · rw [List.map_append]
      rw [List.nodup_append]
      refine ⟨hInv2.nodupKeys, by simp, ?_⟩
      intro a ha hb
      simp at hb
      rw [hb] at ha
      exact hrxk ha
    · intro q hq
      rcases List.mem_append.mp hq with h | h
      · exact hInv2.noSelf q h
      · simp at h
        rw [h]
        exact hne
    · obtain ⟨f, hf⟩ := hInv2.ranked
      refine ⟨fun w => if w = ry then (p2.map (fun q => f q.1)).foldr max (f rx) + 1 else f w, ?_⟩
      intro q hq
      rcases List.mem_append.mp hq with h | h
      · have hq1 : q.1 ≠ ry := by
          intro hc
          apply hryk
          rw [← hc]
          exact List.mem_map.mpr ⟨q, h, rfl⟩
        dsimp only
        rw [if_neg hq1]
        by_cases hq2 : q.2 = ry
        · rw [if_pos hq2]
          have := (le_foldr_max (p2.map (fun q => f q.1)) (f rx)).2 (f q.1)
            (List.mem_map.mpr ⟨q, h, rfl⟩)
          omega
        · rw [if_neg hq2]
          exact hf q h
      · simp at h
        rw [h]
        dsimp only
        rw [if_neg hne, if_pos rfl]
        have := (le_foldr_max (p2.map (fun q => f q.1)) (f rx)).1
        omega
    · intro q hq
      rcases List.mem_append.mp hq with h | h
      · exact hInv2.linkConn q h
      · simp at h
        rw [h]
        exact hconn
  refine ⟨hInv3, ?_⟩
  intro z
  obtain ⟨n, _, hc⟩ := rootD_chain hInv2 z
  by_cases hz : rootD p2 z = rx
  · rw [if_pos hz]
    rw [hz] at hc
    exact rootD_eq_of_chain hInv3 (chain_append_to_new hInv2 hryk hne hc)
  · rw [if_neg hz]
    exact rootD_eq_of_chain hInv3 (chain_append_of_ne hInv2 hz hc)

lemma ufUnion_spec {R : String → String → Prop} {p : PMap} (hInv : UFInv R p)
    (x y : String) (hxy : Relation.EqvGen R x y) :
    UFInv R (ufUnion p x y) ∧
    (∀ z, rootD (ufUnion p x y) z =
      if rootD p z = rootD p x then rootD p y else rootD p z) := by
  obtain ⟨hfx2, hInv1, hkeys1, hroots1⟩ := ufFindCall_spec hInv x
  obtain ⟨hfy2, hInv2, hkeys2, hroots2⟩ := ufFindCall_spec hInv1 y
  have hdef : ufUnion p x y =
      if (ufFindCall p x).2 = (ufFindCall (ufFindCall p x).1 y).2
      then (ufFindCall (ufFindCall p x).1 y).1
      else dset (ufFindCall (ufFindCall p x).1 y).1 (ufFindCall p x).2
        (ufFindCall (ufFindCall p x).1 y).2 := rfl
  have hry1 : rootD (ufFindCall p x).1 y = rootD p y := hroots1 y
  have hrootsall : ∀ z, rootD (ufFindCall (ufFindCall p x).1 y).1 z = rootD p z := by
    intro z
    rw [hroots2 z, hroots1 z]
  rw [hdef, hfx2, hfy2, hry1]
  by_cases heq : rootD p x = rootD p y
  · rw [if_pos heq]
    refine ⟨hInv2, ?_⟩
    intro z
    rw [hrootsall z]
    by_cases hz : rootD p z = rootD p x
    · rw [if_pos hz, hz, heq]
    · rw [if_neg hz]
  · rw [if_neg heq]
    have hrxroot : pget p (rootD p x) = rootD p x := rootD_isRoot hInv x
    have hryroot : pget p (rootD p y) = rootD p y := rootD_isRoot hInv y
    have hkeq : (ufFindCall (ufFindCall p x).1 y).1.map Prod.fst = p.map Prod.fst := by
      rw [hkeys2, hkeys1]
    have hrxk : rootD p x ∉ (ufFindCall (ufFindCall p x).1 y).1.map Prod.fst := by
      rw [hkeq]
      exact root_not_key hInv hrxroot
    have hryk : rootD p y ∉ (ufFindCall (ufFindCall p x).1 y).1.map Prod.fst := by
      rw [hkeq]
      exact root_not_key hInv hryroot
    have hconn : Relation.EqvGen R (rootD p x) (rootD p y) := by
      refine Relation.EqvGen.trans _ _ _ (Relation.EqvGen.symm _ _ (conn_rootD hInv x)) ?_
      exact Relation.EqvGen.trans _ _ _ hxy (conn_rootD hInv y)
    rw [dset_of_not_mem _ hrxk]
    obtain ⟨hInv3, hform⟩ := append_link_inv hInv2 hrxk hryk heq hconn
    refine ⟨hInv3, ?_⟩
    intro z
    rw [hform z, hrootsall z]

lemma foldl_union_spec {R : String → String → Prop} (t : ℚ) :
    ∀ (l : List OverlapRec) (p : PMap), UFInv R p →
      (∀ o ∈ l, t ≤ o.composite → Relation.EqvGen R o.pair.1 o.pair.2) →
      UFInv R (l.foldl
        (fun p o => if t ≤ o.composite then ufUnion p o.pair.1 o.pair.2 else p) p) ∧
      (∀ x y, rootD p x = rootD p y →
        rootD (l.foldl
          (fun p o => if t ≤ o.composite then ufUnion p o.pair.1 o.pair.2 else p) p) x =
        rootD (l.foldl
          (fun p o => if t ≤ o.composite then ufUnion p o.pair.1 o.pair.2 else p) p) y) ∧
      (∀ o ∈ l, t ≤ o.composite →
        rootD (l.foldl
          (fun p o => if t ≤ o.composite then ufUnion p o.pair.1 o.pair.2 else p) p)
            o.pair.1 =
        rootD (l.foldl
          (fun p o => if t ≤ o.composite then ufUnion p o.pair.1 o.pair.2 else p) p)
            o.pair.2) := by
  intro l
  induction l with
  | nil =>
    intro p hInv _
    exact ⟨hInv, fun x y h => h, by simp⟩
  | cons o rest ih =>
    intro p hInv hedge
    rw [List.foldl_cons]
    by_cases hq : t ≤ o.composite
    · rw [if_pos hq]
      obtain ⟨hInvU, hrootU⟩ :=
        ufUnion_spec hInv o.pair.1 o.pair.2 (hedge o (List.mem_cons_self _ _) hq)
      obtain ⟨ih1, ih2, ih3⟩ := ih (ufUnion p o.pair.1 o.pair.2) hInvU
        (fun o2 ho2 hq2 => hedge o2 (List.mem_cons_of_mem _ ho2) hq2)
      refine ⟨ih1, ?_, ?_⟩
      · intro x y hxy
        apply ih2
        rw [hrootU x, hrootU y]
        by_cases h1 : rootD p x = rootD p o.pair.1
        · rw [if_pos h1, if_pos (by rw [← hxy]; exact h1)]
        · rw [if_neg h1, if_neg (by rw [← hxy]; exact h1), hxy]
      · intro o2 ho2 hq2
        rcases List.mem_cons.mp ho2 with rfl | ho3
        · apply ih2
          rw [hrootU o2.pair.1, hrootU o2.pair.2, if_pos rfl]
          by_cases h2 : rootD p o2.pair.2 = rootD p o2.pair.1
          · rw [if_pos h2]
          · rw [if_neg h2]
        · exact ih3 o2 ho3 hq2
    · rw [if_neg hq]
      obtain ⟨ih1, ih2, ih3⟩ :=
        ih p hInv (fun o2 ho2 => hedge o2 (List.mem_cons_of_mem _ ho2))
      refine ⟨ih1, ih2, ?_⟩
      intro o2 ho2 hq2
      rcases List.mem_cons.mp ho2 with rfl | ho3
      · exact absurd hq2 hq
      · exact ih3 o2 ho3 hq2

/-- The union pass is a union-find over exactly the threshold-passing
records: two names get equal roots precisely when they are connected by
a chain of such records. -/
lemma processOverlaps_correct (ov : List OverlapRec) (t : ℚ) :
    UFInv (EdgeAt ov t) (processOverlaps t ov) ∧
    (∀ x y, rootD (processOverlaps t ov) x = rootD (processOverlaps t ov) y ↔
      ConnAt ov t x y) := by
  have hbase : UFInv (EdgeAt ov t) ([] : PMap) := by
    constructor
    · exact List.nodup_nil
    · intro q hq
      simp at hq
    · exact ⟨fun _ => 0, by simp⟩
    · intro q hq
      simp at hq
  have hedge : ∀ o ∈ ov, t ≤ o.composite →
      Relation.EqvGen (EdgeAt ov t) o.pair.1 o.pair.2 :=
    fun o ho hq => Relation.EqvGen.rel _ _ ⟨o, ho, hq, Or.inl rfl⟩
  obtain ⟨h1, _, h3⟩ := foldl_union_spec t ov [] hbase hedge
  have h1p : UFInv (EdgeAt ov t) (processOverlaps t ov) := h1
  have h3p : ∀ o ∈ ov, t ≤ o.composite →
      rootD (processOverlaps t ov) o.pair.1 = rootD (processOverlaps t ov) o.pair.2 :=
    h3
  refine ⟨h1p, ?_⟩
  intro x y
  constructor
  · intro h
    have hx := conn_rootD h1p x
    have hy := conn_rootD h1p y
    exact Relation.EqvGen.trans _ _ _ hx
      (by rw [h]; exact Relation.EqvGen.symm _ _ hy)
  · intro h
    induction h with
    | rel a b hab =>
      obtain ⟨o, ho, hq, hor⟩ := hab
      have hroots := h3p o ho hq
      rcases hor with hp | hp
      · have ha : o.pair.1 = a := by rw [hp]
        have hb : o.pair.2 = b := by rw [hp]
        rw [ha, hb] at hroots
        exact hroots
      · have ha : o.pair.1 = b := by rw [hp]
        have hb : o.pair.2 = a := by rw [hp]
        rw [ha, hb] at hroots
        exact hroots.symm
    | refl a => rfl
    | symm a b _ ih => exact ih.symm
    | trans a b c _ _ ih1 ih2 => exact ih1.trans ih2

lemma buildGroups_snd {R : String → String → Prop} :
    ∀ (order : List String) (p p0 : PMap) (gs : List (String × List String)),
      UFInv R p → (∀ z, rootD p z = rootD p0 z) →
      (order.foldl (fun st s =>
        let f := ufFindCall st.1 s
        (f.1, addToGroups st.2 f.2 s)) (p, gs)).2 =
      order.foldl (fun gs s => addToGroups gs (rootD p0 s) s) gs := by
  intro order
  induction order with
  | nil =>
    intro p p0 gs _ _
    rfl
  | cons s rest ih =>
    intro p p0 gs hInv hroots
    rw [List.foldl_cons, List.foldl_cons]
    obtain ⟨hf2, hInv1, _, hroots1⟩ := ufFindCall_spec hInv s
    have hstep : (let f := ufFindCall p s
        ((f.1 : PMap), addToGroups gs f.2 s)) =
        ((ufFindCall p s).1, addToGroups gs (rootD p0 s) s) := by
      show ((ufFindCall p s).1, addToGroups gs (ufFindCall p s).2 s) = _
      rw [hf2, hroots s]
    rw [hstep]
    exact ih (ufFindCall p s).1 p0 (addToGroups gs (rootD p0 s) s) hInv1
      (fun z => by rw [hroots1 z, hroots z])

lemma addToGroups_not_mem (s : String) :
    ∀ (gs : List (String × List String)) (r : String),
      r ∉ gs.map Prod.fst → addToGroups gs r s = gs ++ [(r, [s])] := by
  intro gs
  induction gs with
  | nil =>
    intro r _
    rfl
  | cons kc0 rest ih =>
    intro r h
    obtain ⟨k, c⟩ := kc0
    rw [List.map_cons, List.mem_cons] at h
    push_neg at h
    simp only [addToGroups]
    rw [if_neg (fun he => h.1 he.symm), ih r h.2, List.cons_append]

lemma addToGroups_update (s : String) :
    ∀ (gs : List (String × List String)) (r : String),
      (gs.map Prod.fst).Nodup → r ∈ gs.map Prod.fst →
      (addToGroups gs r s).map Prod.fst = gs.map Prod.fst ∧
      (∀ kc ∈ addToGroups gs r s,
        (kc.1 ≠ r ∧ kc ∈ gs) ∨
        (∃ c, (r, c) ∈ gs ∧ kc = (r, addMem c s))) := by
  intro gs
  induction gs with
  | nil =>
    intro r _ hr
    simp at hr
  | cons kc0 rest ih =>
    intro r hnd hr
    obtain ⟨k, c⟩ := kc0
    rw [List.map_cons] at hnd
    have hnd1 := List.nodup_cons.mp hnd
    by_cases hk : k = r
    · subst hk
      simp only [addToGroups]
      rw [if_pos trivial]
      constructor
      · rfl
      · intro kc hkc
        rcases List.mem_cons.mp hkc with rfl | htail
        · exact Or.inr ⟨c, List.mem_cons_self _ _, rfl⟩
        · refine Or.inl ⟨?_, List.mem_cons_of_mem _ htail⟩
          intro he
          have hm : kc.1 ∈ List.map Prod.fst rest := List.mem_map_of_mem Prod.fst htail
          exact hnd1.1 (he ▸ hm)
    · have hr2 : r ∈ rest.map Prod.fst := by
        rw [List.map_cons] at hr
        rcases List.mem_cons.mp hr with he | h2
        · exact absurd he.symm hk
        · exact h2
      obtain ⟨ihk, ihe⟩ := ih r hnd1.2 hr2
      simp only [addToGroups]
      rw [if_neg hk]
      constructor
      · rw [List.map_cons, ihk, List.map_cons]
      · intro kc hkc
        rcases List.mem_cons.mp hkc with rfl | htail
        · exact Or.inl ⟨hk, List.mem_cons_self _ _⟩
        · rcases ihe kc htail with ⟨hne, hmem⟩ | ⟨c2, hc2, he⟩
          · exact Or.inl ⟨hne, List.mem_cons_of_mem _ hmem⟩
          · exact Or.inr ⟨c2, List.mem_cons_of_mem _ hc2, he⟩

lemma groupFold_spec (f : String → String) :
    ∀ (order pre : List String) (gs : List (String × List String)),
      (pre ++ order).Nodup →
      (gs.map Prod.fst).Nodup →
      (∀ kc ∈ gs, kc.2 = pre.filter (fun u => decide (f u = kc.1))) →
      (∀ x ∈ pre, f x ∈ gs.map Prod.fst) →
      (((order.foldl (fun gs s => addToGroups gs (f s) s) gs).map Prod.fst).Nodup ∧
       (∀ kc ∈ order.foldl (fun gs s => addToGroups gs (f s) s) gs,
         kc.2 = (pre ++ order).filter (fun u => decide (f u = kc.1))) ∧
       (∀ x ∈ pre ++ order,
         f x ∈ (order.foldl (fun gs s => addToGroups gs (f s) s) gs).map Prod.fst)) := by
  intro order
  induction order with
  | nil =>
    intro pre gs _ h1 h2 h3
    simp only [List.foldl_nil, List.append_nil]
    exact ⟨h1, h2, h3⟩
  | cons s rest ih =>
    intro pre gs hnd h1 h2 h3
    rw [List.foldl_cons]
    have hs_pre : s ∉ pre :=
      fun hs => (List.nodup_append.mp hnd).2.2 hs (List.mem_cons_self _ _)
    have hnd' : ((pre ++ [s]) ++ rest).Nodup := by
      rw [List.append_assoc, List.singleton_append]
      exact hnd
    by_cases hmem : f s ∈ gs.map Prod.fst
    · obtain ⟨hkeys, hentries⟩ := addToGroups_update s gs (f s) h1 hmem
      have h1' : ((addToGroups gs (f s) s).map Prod.fst).Nodup := by
        rw [hkeys]
        exact h1
      have h2' : ∀ kc ∈ addToGroups gs (f s) s,
          kc.2 = (pre ++ [s]).filter (fun u => decide (f u = kc.1)) := by
        intro kc hkc
        rcases hentries kc hkc with ⟨hne, hmem2⟩ | ⟨c, hc, he⟩
        · rw [h2 kc hmem2, List.filter_append]
          have hq : decide (f s = kc.1) = false :=
            decide_eq_false (fun he => hne he.symm)
          rw [show [s].filter (fun u => decide (f u = kc.1)) = [] by
            simp [List.filter_cons, hq]]
          rw [List.append_nil]
        · have hcv : c = pre.filter (fun u => decide (f u = f s)) := h2 (f s, c) hc
          subst he
          show addMem c s = (pre ++ [s]).filter (fun u => decide (f u = f s))
          have hsc : s ∉ c := by
            intro hsin
            rw [hcv] at hsin
            exact hs_pre (List.mem_of_mem_filter hsin)
          rw [addMem, if_neg hsc, List.filter_append, hcv]
          congr 1
          simp
      have h3' : ∀ x ∈ pre ++ [s], f x ∈ (addToGroups gs (f s) s).map Prod.fst := by
        intro x hx
        rw [hkeys]
        rcases List.mem_append.mp hx with hx1 | hx2
        · exact h3 x hx1
        · rw [List.mem_singleton.mp hx2]
          exact hmem
      obtain ⟨g1, g2, g3⟩ := ih (pre ++ [s]) (addToGroups gs (f s) s) hnd' h1' h2' h3'
      refine ⟨g1, ?_, ?_⟩
      · intro kc hkc
        have hg := g2 kc hkc
        rwa [List.append_assoc, List.singleton_append] at hg
      · intro x hx
        apply g3
        rw [List.append_assoc, List.singleton_append]
        exact hx
    · rw [addToGroups_not_mem s gs (f s) hmem]
      have h1' : (((gs ++ [(f s, [s])]).map Prod.fst)).Nodup := by
        rw [List.map_append]
        refine List.nodup_append.mpr ⟨h1, List.nodup_singleton _, ?_⟩
        intro a ha hb
        rw [List.map_cons, List.map_nil] at hb
        have he : a = f s := List.mem_singleton.mp hb
        exact hmem (he ▸ ha)
      have h2' : ∀ kc ∈ gs ++ [(f s, [s])],
          kc.2 = (pre ++ [s]).filter (fun u => decide (f u = kc.1)) := by
        intro kc hkc
        rcases List.mem_append.mp hkc with hold | hnew
        · rw [h2 kc hold, List.filter_append]
          have hq : decide (f s = kc.1) = false :=
            decide_eq_false (fun he => hmem (he ▸ List.mem_map_of_mem Prod.fst hold))
          rw [show [s].filter (fun u => decide (f u = kc.1)) = [] by
            simp [List.filter_cons, hq]]
          rw [List.append_nil]
        · rw [List.mem_singleton.mp hnew]
          show [s] = (pre ++ [s]).filter (fun u => decide (f u = f s))
          rw [List.filter_append]
          have hpre : pre.filter (fun u => decide (f u = f s)) = [] := by
            refine List.filter_eq_nil_iff.mpr ?_
            intro a ha hq
            exact hmem (of_decide_eq_true hq ▸ h3 a ha)
          rw [hpre, List.nil_append]
          simp
      have h3' : ∀ x ∈ pre ++ [s], f x ∈ (gs ++ [(f s, [s])]).map Prod.fst := by
        intro x hx
        rw [List.map_append, List.mem_append]
        rcases List.mem_append.mp hx with hx1 | hx2
        · exact Or.inl (h3 x hx1)
        · refine Or.inr ?_
          rw [List.mem_singleton.mp hx2, List.map_cons, List.map_nil]
          exact List.mem_singleton.mpr rfl
      obtain ⟨g1, g2, g3⟩ := ih (pre ++ [s]) (gs ++ [(f s, [s])]) hnd' h1' h2' h3'
      refine ⟨g1, ?_, ?_⟩
      · intro kc hkc
        have hg := g2 kc hkc
        rwa [List.append_assoc, List.singleton_append] at hg
      · intro x hx
        apply g3
        rw [List.append_assoc, List.singleton_append]
        exact hx

lemma find_clusters_eq (order : List String) (ov : List OverlapRec) (t : ℚ) :
    find_clusters order ov t =
      ((buildGroups (processOverlaps t ov) order).2.map Prod.snd).filter
        (fun c => decide (1 < c.length)) := rfl

/-- Every cluster emitted by `find_clusters` is exactly the sub-list of
the enumeration order whose members share one union-find root, with more
than one member; conversely every such root class is emitted. -/
lemma find_clusters_spec (order : List String) (ov : List OverlapRec) (t : ℚ)
    (hnodup : order.Nodup) (c : List String) :
    c ∈ find_clusters order ov t ↔
      (1 < c.length ∧ ∃ k, c = order.filter
        (fun s => decide (rootD (processOverlaps t ov) s = k))) := by
  have hInv := (processOverlaps_correct ov t).1
  have hbg : (buildGroups (processOverlaps t ov) order).2 =
      order.foldl
        (fun gs s => addToGroups gs (rootD (processOverlaps t ov) s) s) [] :=
    buildGroups_snd order (processOverlaps t ov) (processOverlaps t ov) [] hInv
      (fun _ => rfl)
  obtain ⟨g1, g2, g3⟩ := groupFold_spec (fun s => rootD (processOverlaps t ov) s)
      order [] [] (by simpa using hnodup) List.nodup_nil (by simp) (by simp)
  rw [find_clusters_eq, hbg]
  constructor
  · intro hc
    rw [List.mem_filter] at hc
    obtain ⟨hcm, hlen⟩ := hc
    obtain ⟨kc, hkc, hsnd⟩ := List.mem_map.mp hcm
    refine ⟨of_decide_eq_true hlen, kc.1, ?_⟩
    rw [← hsnd, g2 kc hkc, List.nil_append]
  · rintro ⟨hlen, k, hck⟩
    have hne : c ≠ [] := by
      intro h
      rw [h] at hlen
      simp at hlen
    obtain ⟨s, hs⟩ := List.exists_mem_of_ne_nil c hne
    have hs2 := hs
    rw [hck, List.mem_filter] at hs2
    obtain ⟨hso, hsk⟩ := hs2
    have hk : rootD (processOverlaps t ov) s = k := of_decide_eq_true hsk
    have hcov := g3 s (by simpa using hso)
    obtain ⟨kc, hkc, hkck⟩ := List.mem_map.mp hcov
    have hk1 : kc.1 = k := by
      rw [hkck]
      exact hk
    have hfe : kc.2 = c := by
      rw [g2 kc hkc, hck]
      simp only [hk1, List.nil_append]
    rw [List.mem_filter]
    exact ⟨List.mem_map.mpr ⟨kc, hkc, hfe⟩, decide_eq_true hlen⟩

lemma connAt_mono {ov : List OverlapRec} {t1 t2 : ℚ} (ht : t1 ≤ t2) :
    ∀ x y, ConnAt ov t2 x y → ConnAt ov t1 x y := by
  intro x y h
  refine Relation.EqvGen.mono ?_ h
  rintro a b ⟨o, ho, hq, hor⟩
  exact ⟨o, ho, le_trans ht hq, hor⟩

lemma exists_other_of_one_lt (c : List String) (hnd : c.Nodup) (hlen : 1 < c.length)
    (x : String) (hx : x ∈ c) : ∃ y ∈ c, y ≠ x := by
  by_contra h
  push_neg at h
  rcases c with _ | ⟨a, rest⟩
  · simp at hx
  · rcases rest with _ | ⟨b, rest2⟩
    · simp at hlen
    · have ha := h a (List.mem_cons_self _ _)
      have hb := h b (List.mem_cons_of_mem _ (List.mem_cons_self _ _))
      rw [List.nodup_cons] at hnd
      exact hnd.1 (by rw [ha, ← hb]; exact List.mem_cons_self _ _)

lemma one_lt_length_of_two_mem (l : List String) (x y : String)
    (hx : x ∈ l) (hy : y ∈ l) (hne : x ≠ y) : 1 < l.length := by
  rcases l with _ | ⟨a, rest⟩
  · simp at hx
  · rcases rest with _ | ⟨b, rest2⟩
    · rw [List.mem_singleton] at hx hy
      exact absurd (hx.trans hy.symm) hne
    · simp only [List.length_cons]
      omega

/-- C3: every cluster emitted by `find_clusters` on the reported overlap
list has at least two distinct members; when the enumeration order covers
exactly the names occurring in reported records, every member of a
cluster is such a name; and any two members of one cluster are connected
by a chain of reported overlap records whose stored composite is at or
above the cluster threshold. -/
theorem c3_cluster_size_and_connectivity (skills : List Skill) (order : List String)
    (t : ℚ) (hnodup : order.Nodup)
    (hset : order.toFinset = overlapNodes (compute_overlap skills))
    (c : List String) (hc : c ∈ find_clusters order (compute_overlap skills) t) :
    2 ≤ c.length ∧ c.Nodup ∧
    (∀ x ∈ c, x ∈ overlapNodes (compute_overlap skills)) ∧
    (∀ x ∈ c, ∀ y ∈ c, ConnAt (compute_overlap skills) t x y) := by
  obtain ⟨hlen, k, hck⟩ :=
    (find_clusters_spec order (compute_overlap skills) t hnodup c).mp hc
  refine ⟨hlen, ?_, ?_, ?_⟩
  · rw [hck]
    exact hnodup.filter _
  · intro x hx
    rw [hck] at hx
    rw [← hset, List.mem_toFinset]
    exact List.mem_of_mem_filter hx
  · intro x hx y hy
    rw [hck, List.mem_filter] at hx hy
    refine ((processOverlaps_correct (compute_overlap skills) t).2 x y).mp ?_
    rw [of_decide_eq_true hx.2, of_decide_eq_true hy.2]

/-- Witness for C3 on the concrete two-cluster corpus at threshold 1/4. -/
theorem c3_cluster_size_and_connectivity_witness :
    orderOne.Nodup ∧
    orderOne.toFinset = overlapNodes (compute_overlap clusCorpus) ∧
    [ "a", "b" ] ∈ find_clusters orderOne (compute_overlap clusCorpus) (mkRat 1 4) ∧
    (2 ≤ ([ "a", "b" ] : List String).length ∧ ([ "a", "b" ] : List String).Nodup ∧
     (∀ x ∈ ([ "a", "b" ] : List String),
       x ∈ overlapNodes (compute_overlap clusCorpus)) ∧
     (∀ x ∈ ([ "a", "b" ] : List String), ∀ y ∈ ([ "a", "b" ] : List String),
       ConnAt (compute_overlap clusCorpus) (mkRat 1 4) x y)) :=
  ⟨by decide, Finset.Subset.antisymm (by decide) (by decide), by decide,
   c3_cluster_size_and_connectivity clusCorpus orderOne (mkRat 1 4) (by decide)
     (Finset.Subset.antisymm (by decide) (by decide)) [ "a", "b" ] (by decide)⟩

/-- C4: with the overlap list fixed, raising the cluster threshold never
increases cluster membership (every name clustered at the higher
threshold is clustered at the lower one), and every cluster produced at
the higher threshold is the class of names connected to one of its
members through the unchanged overlap list. -/
theorem c4_threshold_monotone (order : List String) (ov : List OverlapRec)
    (t1 t2 : ℚ) (hnodup : order.Nodup) (ht : t1 ≤ t2) :
    (∀ x, (∃ c ∈ find_clusters order ov t2, x ∈ c) →
          (∃ c ∈ find_clusters order ov t1, x ∈ c)) ∧
    (∀ c ∈ find_clusters order ov t2, ∃ x ∈ c,
      ∀ y, (y ∈ c ↔ (y ∈ order ∧ ConnAt ov t2 x y))) := by
  constructor
  · rintro x ⟨c, hc, hx⟩
    obtain ⟨hlen, k, hck⟩ := (find_clusters_spec order ov t2 hnodup c).mp hc
    have hcnd : c.Nodup := by
      rw [hck]
      exact hnodup.filter _
    obtain ⟨y, hy, hyx⟩ := exists_other_of_one_lt c hcnd hlen x hx
    have hxf := hx
    have hyf := hy
    rw [hck, List.mem_filter] at hxf hyf
    have hconn2 : ConnAt ov t2 x y := by
      refine ((processOverlaps_correct ov t2).2 x y).mp ?_
      rw [of_decide_eq_true hxf.2, of_decide_eq_true hyf.2]
    have hroot1 : rootD (processOverlaps t1 ov) x = rootD (processOverlaps t1 ov) y :=
      ((processOverlaps_correct ov t1).2 x y).mpr (connAt_mono ht x y hconn2)
    refine ⟨order.filter (fun s =>
        decide (rootD (processOverlaps t1 ov) s = rootD (processOverlaps t1 ov) x)),
      ?_, ?_⟩
    · refine (find_clusters_spec order ov t1 hnodup _).mpr
        ⟨?_, rootD (processOverlaps t1 ov) x, rfl⟩
      refine one_lt_length_of_two_mem _ x y ?_ ?_ (fun he => hyx he.symm)
      · rw [List.mem_filter]
        exact ⟨hxf.1, decide_eq_true rfl⟩
      · rw [List.mem_filter]
        exact ⟨hyf.1, decide_eq_true hroot1.symm⟩
    · rw [List.mem_filter]
      exact ⟨hxf.1, decide_eq_true rfl⟩
  · intro c hc
    obtain ⟨hlen, k, hck⟩ := (find_clusters_spec order ov t2 hnodup c).mp hc
    have hne : c ≠ [] := by
      intro h
      rw [h] at hlen
      simp at hlen
    obtain ⟨x, hx⟩ := List.exists_mem_of_ne_nil c hne
    refine ⟨x, hx, ?_⟩
    have hxf := hx
    rw [hck, List.mem_filter] at hxf
    have hxk : rootD (processOverlaps t2 ov) x = k := of_decide_eq_true hxf.2
    intro y
    constructor
    · intro hy
      have hyf := hy
      rw [hck, List.mem_filter] at hyf
      refine ⟨hyf.1, ?_⟩
      refine ((processOverlaps_correct ov t2).2 x y).mp ?_
      rw [hxk, of_decide_eq_true hyf.2]
    · rintro ⟨hyo, hconn⟩
      rw [hck, List.mem_filter]
      refine ⟨hyo, decide_eq_true ?_⟩
      rw [← hxk]
      exact (((processOverlaps_correct ov t2).2 x y).mpr hconn).symm

/-- Witness for C4 on the concrete two-cluster corpus, thresholds
1/4 ≤ 3/10. -/
theorem c4_threshold_monotone_witness :
    orderOne.Nodup ∧ (mkRat 1 4 : ℚ) ≤ mkRat 3 10 ∧
    ((∀ x, (∃ c ∈ find_clusters orderOne (compute_overlap clusCorpus) (mkRat 3 10),
              x ∈ c) →
           (∃ c ∈ find_clusters orderOne (compute_overlap clusCorpus) (mkRat 1 4),
              x ∈ c)) ∧
     (∀ c ∈ find_clusters orderOne (compute_overlap clusCorpus) (mkRat 3 10),
       ∃ x ∈ c, ∀ y, (y ∈ c ↔ (y ∈ orderOne ∧
         ConnAt (compute_overlap clusCorpus) (mkRat 3 10) x y)))) :=
  ⟨by decide, by decide,
   c4_threshold_monotone orderOne (compute_overlap clusCorpus)
     (mkRat 1 4) (mkRat 3 10) (by decide) (by decide)⟩

/-- C6 (refuted): the emitted cluster list depends on the enumeration
order of the Python set `all_skills`, which CPython iterates in a
hash-randomized order that varies between processes.  Two enumeration
orders of the same four reported names produce the same two clusters in
different list positions, so re-running the pipeline on an unchanged
corpus need not be byte-for-byte idempotent. -/
theorem c6_cluster_list_depends_on_set_order :
    orderOne.Nodup ∧ orderTwo.Nodup ∧
    orderOne.toFinset = overlapNodes clusOverlaps ∧
    orderTwo.toFinset = overlapNodes clusOverlaps ∧
    find_clusters orderOne clusOverlaps (mkRat 1 4) =
      [ [ "a", "b" ], [ "c", "d" ] ] ∧
    find_clusters orderTwo clusOverlaps (mkRat 1 4) =
      [ [ "c", "d" ], [ "a", "b" ] ] ∧
    find_clusters orderOne clusOverlaps (mkRat 1 4) ≠
      find_clusters orderTwo clusOverlaps (mkRat 1 4) :=
  ⟨by decide, by decide,
   Finset.Subset.antisymm (by decide) (by decide),
   Finset.Subset.antisymm (by decide) (by decide),
   by decide, by decide, by decide⟩

end SkillCurator
